import Mathlib

/-!
The hierarchical logger registry of libdadi (`src/logging/Logger.cc`)

A shallow embedding of `dadi::Logger` and of its static registry `lmap_`.

* `std::string` is modelled by its sequence of characters, `List Char`.
* A `LoggerPtr` / `ChannelPtr` is a shared pointer: `none` is the null pointer,
  `some p` an address.  Logger objects live in `Registry.heap`; the address of
  an object is its index, and `new` appends to the heap.
* `lmap_` is an association list from names to (non-null) logger addresses.
* Every operation returns its outcome together with the process state in
  which it ended, so that the state at a `throw` can be observed.
-/

namespace dadi

/-- A `std::string`, as its sequence of characters. -/
abbrev Name := List Char

/-- The address of a heap object. -/
abbrev Ptr := Nat

/-- A `ChannelPtr`: a nullable shared pointer to a channel. -/
abbrev ChannelPtr := Option Ptr

/-- A `LoggerPtr`: a nullable shared pointer to a logger. -/
abbrev LoggerPtr := Option Ptr

/-- Modelled from the spec: the header `Logging/Logger.hh` that declares
`LoggerMap` is missing; the spec has a mapping from names to loggers with
unique keys. The pairs are those inserted, latest first; the pointers stored
are never null, `add` reads the name through them. -/
abbrev LoggerMap := List (Name × Ptr)

namespace Message

/-- Modelled from the spec: the header `Logging/Message.hh` with the priority
constants is missing; the spec lists the levels in ascending severity
`TRACE < DEBUG < INFORMATION < WARNING < ERROR < FATAL`. -/
def PRIO_TRACE : Int := 0

/-- Modelled from the spec: see `PRIO_TRACE`. -/
def PRIO_DEBUG : Int := 1

/-- Modelled from the spec: see `PRIO_TRACE`. -/
def PRIO_INFORMATION : Int := 2

/-- Modelled from the spec: see `PRIO_TRACE`. -/
def PRIO_WARNING : Int := 3

/-- Modelled from the spec: see `PRIO_TRACE`. -/
def PRIO_ERROR : Int := 4

/-- Modelled from the spec: see `PRIO_TRACE`. -/
def PRIO_FATAL : Int := 5

end Message

/-- The data members of a `dadi::Logger` object. -/
structure Logger where
  name_ : Name
  channel_ : ChannelPtr
  level_ : Int
deriving DecidableEq, Repr

/-- The process state the logger code works on: the objects allocated so far
and the static map `Logger::lmap_`. -/
structure Registry where
  heap : List Logger
  lmap_ : LoggerMap
deriving DecidableEq, Repr

/-- What can end an operation early. `alreadyExists` is the exception thrown by
`createLogger`; `nullPointer` is the dereference of a pointer that is null or
does not address an object; `outOfFuel` is the recursion bound of the model
being reached. -/
inductive Error where
  | alreadyExists
  | nullPointer
  | outOfFuel
deriving DecidableEq, Repr

deriving instance DecidableEq for Except

/-- The outcome of an operation and the state it ended in. -/
abbrev Result (α : Type) := Except Error α × Registry

/-- The static member `Logger::root_`, the empty string. -/
def root_ : Name := []

/-- The registry before first use: nothing allocated, `lmap_` empty. -/
def Registry.empty : Registry := ⟨[], []⟩

/-- The expression `name.rfind(c)` of `std::string`: the last index holding `c`, `none`
for `npos`. -/
def rfind : Name → Char → Option Nat
  | [], _ => none
  | x :: xs, c =>
    match rfind xs c with
    | some i => some (i + 1)
    | none => if x = c then some 0 else none

/-- The expression `name.substr(pos, n)` of `std::string`, for `pos` within the string. -/
def substr (name : Name) (pos n : Nat) : Name := (name.drop pos).take n

/-- `Logger::getName`. -/
def Logger.getName (this : Logger) : Name := this.name_

/-- `Logger::setChannel`. -/
def Logger.setChannel (this : Logger) (channel : ChannelPtr) : Logger :=
  { this with channel_ := channel }

/-- `Logger::getChannel`. -/
def Logger.getChannel (this : Logger) : ChannelPtr := this.channel_

/-- `Logger::setLevel`. -/
def Logger.setLevel (this : Logger) (level : Int) : Logger :=
  { this with level_ := level }

/-- `Logger::getLevel`. -/
def Logger.getLevel (this : Logger) : Int := this.level_

/-- Reading through a pointer: the object addressed, when there is one. -/
def deref (s : Registry) : LoggerPtr → Option Logger
  | none => none
  | some p => s.heap[p]?

/-- A call `p->m(...)` of a member that changes the object: the object at `p`
is replaced by what the member leaves; calling through a pointer that is null
or addresses no object is an error. -/
def callOn (s : Registry) (p : LoggerPtr) (m : Logger → Logger) : Result Unit :=
  match p, deref s p with
  | some a, some l => (.ok (), { s with heap := s.heap.set a (m l) })
  | _, _ => (.error .nullPointer, s)

/-- The expression `new Logger(name, channel, level)`: the constructor stores its three
arguments; the object gets the next free address. -/
def allocLogger (s : Registry) (name : Name) (channel : ChannelPtr) (level : Int) :
    LoggerPtr × Registry :=
  (some s.heap.length, { s with heap := s.heap ++ [⟨name, channel, level⟩] })

/-- The call `lmap_.find(k)`: the value stored under `k`, `none` for `lmap_.end()`. -/
def mapFind : LoggerMap → Name → Option Ptr
  | [], _ => none
  | (k, v) :: m, name => if k = name then some v else mapFind m name

/-- The call `lmap_.insert(value_type(k, v))`: adds the pair unless the key is
present, and leaves the map as it is when it is. -/
def mapInsert (m : LoggerMap) (k : Name) (v : Ptr) : LoggerMap :=
  match mapFind m k with
  | some _ => m
  | none => (k, v) :: m

/-- `Logger::find`. -/
def find (s : Registry) (name : Name) : LoggerPtr := mapFind s.lmap_ name

/-- `Logger::add`. -/
def add (s : Registry) (logger : LoggerPtr) : Result Unit :=
  match logger, deref s logger with
  | some p, some l => (.ok (), { s with lmap_ := mapInsert s.lmap_ l.getName p })
  | _, _ => (.error .nullPointer, s)

mutual

/-- `Logger::get`; the first argument bounds the depth of the recursion. -/
def get : Nat → Registry → Name → Result LoggerPtr
  | 0, s, _ => (.error .outOfFuel, s)
  | fuel + 1, s, name =>
    match find s name with
    | some p => (.ok (some p), s)
    | none =>
      if root_ = name then
        match allocLogger s name none Message.PRIO_INFORMATION with
        | (logger, s1) =>
          match add s1 logger with
          | (.error e, s2) => (.error e, s2)
          | (.ok _, s2) => (.ok logger, s2)
      else
        match getParent fuel s name with
        | (.error e, s1) => (.error e, s1)
        | (.ok parent, s1) =>
          match deref s1 parent with
          | none => (.error .nullPointer, s1)
          | some pl =>
            match allocLogger s1 name pl.getChannel pl.getLevel with
            | (logger, s2) =>
              match add s2 logger with
              | (.error e, s3) => (.error e, s3)
              | (.ok _, s3) => (.ok logger, s3)

/-- `Logger::getParent`; the first argument bounds the depth of the recursion. -/
def getParent : Nat → Registry → Name → Result LoggerPtr
  | 0, s, _ => (.error .outOfFuel, s)
  | fuel + 1, s, name =>
    match rfind name '.' with
    | some pos =>
      let pname := substr name 0 pos
      match find s pname with
      | some p => (.ok (some p), s)
      | none => getParent fuel s pname
    | none => get fuel s root_

end

/-- Enough recursion depth for a lookup of `name`: `getParent` calls itself at
most once per character, and `get` and the final `get(root_)` take one
level each. -/
def fuelFor (name : Name) : Nat := name.length + 3

/-- `Logger::getLogger`. -/
def getLogger (s : Registry) (name : Name) : Result LoggerPtr :=
  get (fuelFor name) s name

/-- `Logger::getRootLogger`. -/
def getRootLogger (s : Registry) : Result LoggerPtr :=
  get (fuelFor root_) s root_

/-- `Logger::createLogger`. The default `Message::PRIO_INFORMATION` of `level`
is supplied by the caller. -/
def createLogger (s : Registry) (name : Name) (channel : ChannelPtr) (level : Int) :
    Result LoggerPtr :=
  match find s name with
  | some _ => (.error .alreadyExists, s)
  | none =>
    match allocLogger s name channel level with
    | (newLogger, s1) =>
      match add s1 newLogger with
      | (.error e, s2) => (.error e, s2)
      | (.ok _, s2) => (.ok newLogger, s2)

/-- `Logger::shutdown`. -/
def shutdown (s : Registry) : Registry := { s with lmap_ := [] }

/-- Every address stored in `lmap_` addresses an object: a shared pointer held
by the map keeps its object alive. -/
def Registry.WF (s : Registry) : Prop := ∀ e ∈ s.lmap_, e.2 < s.heap.length

instance (s : Registry) : Decidable s.WF := by
  unfold Registry.WF; infer_instance

/-- The operations on the registry and on handles, `shutdown` apart. -/
inductive Op where
  | find (name : Name)
  | getLogger (name : Name)
  | getRootLogger
  | createLogger (name : Name) (channel : ChannelPtr) (level : Int)
  | setLevel (handle : LoggerPtr) (level : Int)
  | setChannel (handle : LoggerPtr) (channel : ChannelPtr)

/-- The state an operation ends in. -/
def step (s : Registry) : Op → Registry
  | .find _ => s
  | .getLogger name => (getLogger s name).2
  | .getRootLogger => (getRootLogger s).2
  | .createLogger name channel level => (createLogger s name channel level).2
  | .setLevel handle level => (callOn s handle (fun l => l.setLevel level)).2
  | .setChannel handle channel => (callOn s handle (fun l => l.setChannel channel)).2

/-- The state a sequence of operations ends in. -/
def run (s : Registry) (ops : List Op) : Registry := ops.foldl step s

/-- The state `s'` keeps what `s` holds: the objects of `s` are at their
addresses under their names, and an entry of `s'` that is not an entry of `s`
addresses an object created since, stored under that object's name. -/
def Registry.Grows (s s' : Registry) : Prop :=
  s.heap.length ≤ s'.heap.length ∧
  (∀ (a : Nat) (l : Logger), s.heap[a]? = some l →
    ∃ l' : Logger, s'.heap[a]? = some l' ∧ l'.name_ = l.name_) ∧
  (∀ e ∈ s'.lmap_, e ∈ s.lmap_ ∨
    (s.heap.length ≤ e.2 ∧ ∃ l : Logger, s'.heap[e.2]? = some l ∧ l.name_ = e.1))

/-- Every entry of `lmap_` is stored under the name of the logger it addresses. -/
def Registry.KeyIsName (s : Registry) : Prop :=
  ∀ e ∈ s.lmap_, ∃ l : Logger, s.heap[e.2]? = some l ∧ l.getName = e.1

/-- The states the registry can be in: the empty registry, and what the
operations and `shutdown` make of such a state. -/
inductive Reachable : Registry → Prop where
  | init : Reachable Registry.empty
  | step (s : Registry) (op : Op) : Reachable s → Reachable (step s op)
  | shutdown (s : Registry) : Reachable s → Reachable (shutdown s)

/-- Modelled from the spec: the header `Logging/Message.hh` that declares
`Message` is missing; the spec has an immutable event with a text and a
priority. -/
structure Message where
  text : List Char
  priority : Int
deriving DecidableEq, Repr

/-- Modelled from the spec: `Message::getPriority`, the priority of the event. -/
def Message.getPriority (this : Message) : Int := this.priority

/-- `Logger::log`. The result lists the calls `channel_->log(msg)` made, each
with the channel called and the message passed. -/
def Logger.log (this : Logger) (msg : Message) : List (Ptr × Message) :=
  if msg.getPriority ≥ this.level_ then
    match this.channel_ with
    | some channel => [(channel, msg)]
    | none => []
  else []

/-- `Logger::is`. -/
def Logger.is (this : Logger) (level : Int) : Bool := decide (this.level_ ≤ level)

/-- The constant `std::string::npos`, the largest `size_t`, for a `size_t` of 64 bits. -/
def npos : Nat := 2 ^ 64 - 1

/-- The value `path.rfind(c)` as the `size_t` it is: the index found, or `npos`. -/
def rfindPos (path : Name) (c : Char) : Nat :=
  match rfind path c with
  | some pos => pos
  | none => npos

/-- The call `key.erase(pos)` of `std::string`, for `pos` within the string:
drops the characters from `pos` on. -/
def erase (key : Name) (pos : Nat) : Name := key.take pos

/-- The index at which `Attributes::getAttrList` evaluates `key[pos]`, when the
left operand of `&&` lets it be evaluated. -/
def getAttrListAccess (path : Name) : Option Nat :=
  let pos := rfindPos path '.'
  let key := path
  if key.length ≠ pos then some pos else none

/-- The head of `Attributes::getAttrList`, which splits `path` into `key` and
`subkey`; `none` when `key[pos]` reads outside the string. -/
def getAttrListSplit (path : Name) : Option (Name × Name) :=
  let pos := rfindPos path '.'
  let key := path
  let subkey : Name := []
  if key.length ≠ pos then
    match key[pos]? with
    | none => none
    | some ch =>
      if ch = '.' then some (erase key pos, substr key (pos + 1) npos)
      else some (key, subkey)
  else some (key, subkey)

/-! ## Strings -/

theorem rfind_none (name : Name) (c : Char) (h : rfind name c = none) :
    ∀ k : Nat, name[k]? ≠ some c := by
  induction name with
  | nil => intro k; simp
  | cons x xs ih =>
    simp only [rfind] at h
    cases hr : rfind xs c with
    | some i => rw [hr] at h; simp at h
    | none =>
      rw [hr] at h
      by_cases hx : x = c
      · simp [hx] at h
      · intro k
        cases k with
        | zero => simpa using hx
        | succ k => simpa using ih hr k

theorem rfind_some (name : Name) (c : Char) (pos : Nat) (h : rfind name c = some pos) :
    name[pos]? = some c ∧ ∀ j : Nat, pos < j → name[j]? ≠ some c := by
  induction name generalizing pos with
  | nil => simp [rfind] at h
  | cons x xs ih =>
    simp only [rfind] at h
    cases hr : rfind xs c with
    | some i =>
      rw [hr] at h
      simp only [Option.some.injEq] at h
      subst h
      obtain ⟨h1, h2⟩ := ih i hr
      refine ⟨by simpa using h1, ?_⟩
      intro j hj
      cases j with
      | zero => omega
      | succ j => simpa using h2 j (by omega)
    | none =>
      rw [hr] at h
      by_cases hx : x = c
      · simp only [hx, if_true, Option.some.injEq] at h
        subst h
        refine ⟨by simp [hx], ?_⟩
        intro j hj
        cases j with
        | zero => omega
        | succ j => simpa using rfind_none xs c hr j
      · simp [hx] at h

theorem substr_zero (name : Name) (pos : Nat) : substr name 0 pos = name.take pos := by
  simp [substr]

theorem getElem_some_lt (name : Name) (k : Nat) (c : Char) (h : name[k]? = some c) :
    k < name.length := by
  by_contra hk
  rw [List.getElem?_eq_none (by omega)] at h
  exact absurd h (by simp)

theorem heap_second (h : List Logger) (a b : Logger) :
    (h ++ [a, b])[h.length + 1]? = some b := by
  rw [List.getElem?_append_right (by omega)]
  simp

/-! ## The registry -/

/-- The state after `get` has registered a new logger for `name` in `s`. -/
theorem add_alloc (s : Registry) (name : Name) (channel : ChannelPtr) (level : Int)
    (h : find s name = none) :
    add (allocLogger s name channel level).2 (allocLogger s name channel level).1 =
      (.ok (), ⟨s.heap ++ [⟨name, channel, level⟩], (name, s.heap.length) :: s.lmap_⟩) := by
  simp only [find] at h
  simp [add, allocLogger, deref, mapInsert, Logger.getName, h]

theorem get_found (fuel : Nat) (s : Registry) (name : Name) (p : Ptr)
    (h : find s name = some p) : get (fuel + 1) s name = (.ok (some p), s) := by
  simp [get, h]

theorem get_root_new (fuel : Nat) (s : Registry) (h : find s root_ = none) :
    get (fuel + 1) s root_ =
      (.ok (some s.heap.length),
        ⟨s.heap ++ [⟨root_, none, Message.PRIO_INFORMATION⟩],
          (root_, s.heap.length) :: s.lmap_⟩) := by
  have h2 := add_alloc s root_ none Message.PRIO_INFORMATION h
  simp only [get, h, if_true]
  rw [h2]
  simp [allocLogger]

theorem get_root_fuel (fuel : Nat) (s : Registry) :
    get (fuel + 1) s root_ = get 1 s root_ := by
  cases h : find s root_ with
  | some p => rw [get_found fuel s root_ p h, get_found 0 s root_ p h]
  | none => rw [get_root_new fuel s h, get_root_new 0 s h]

theorem get_new (fuel : Nat) (s s1 : Registry) (name : Name) (q : Ptr) (pl : Logger)
    (hn : name ≠ root_) (h : find s name = none)
    (hp : getParent fuel s name = (.ok (some q), s1))
    (hq : s1.heap[q]? = some pl) (h1 : find s1 name = none) :
    get (fuel + 1) s name =
      (.ok (some s1.heap.length),
        ⟨s1.heap ++ [⟨name, pl.channel_, pl.level_⟩], (name, s1.heap.length) :: s1.lmap_⟩) := by
  have h2 := add_alloc s1 name pl.channel_ pl.level_ h1
  have hn2 : ¬ root_ = name := fun e => hn e.symm
  simp only [get, h, hn2, if_false, hp, deref, hq, Logger.getChannel, Logger.getLevel]
  rw [h2]
  simp [allocLogger]

/-- What `getParent` returns: the logger registered under the longest prefix
that ends just before a `.`, or else what `get(root_)` returns. -/
theorem getParent_cases (fuel : Nat) (s : Registry) (name : Name)
    (h : name.length + 2 ≤ fuel) :
    (∃ (k : Nat) (q : Ptr), name[k]? = some '.' ∧ find s (name.take k) = some q ∧
        (∀ j : Nat, k < j → name[j]? = some '.' → find s (name.take j) = none) ∧
        getParent fuel s name = (.ok (some q), s)) ∨
    ((∀ k : Nat, name[k]? = some '.' → find s (name.take k) = none) ∧
        getParent fuel s name = get 1 s root_) := by
  induction fuel generalizing name with
  | zero => omega
  | succ f ih =>
    cases hr : rfind name '.' with
    | none =>
      right
      refine ⟨fun k hk => absurd hk (rfind_none name '.' hr k), ?_⟩
      obtain ⟨g, rfl⟩ : ∃ g, f = g + 1 := ⟨f - 1, by omega⟩
      simp only [getParent, hr]
      exact get_root_fuel g s
    | some pos =>
      obtain ⟨hdot, hlast⟩ := rfind_some name '.' pos hr
      have hpos : pos < name.length := getElem_some_lt name pos '.' hdot
      have hle : ∀ k : Nat, name[k]? = some '.' → k ≤ pos := by
        intro k hk
        by_contra hc
        exact hlast k (by omega) hk
      cases hf : find s (name.take pos) with
      | some q =>
        left
        refine ⟨pos, q, hdot, hf, ?_, ?_⟩
        · intro j hj hjd
          exact absurd hjd (hlast j hj)
        · simp [getParent, hr, substr_zero, hf]
      | none =>
        have hstep : getParent (f + 1) s name = getParent f s (name.take pos) := by
          simp [getParent, hr, substr_zero, hf]
        have hlen : (name.take pos).length + 2 ≤ f := by
          simp only [List.length_take]; omega
        have hget : ∀ k : Nat, k < pos → (name.take pos)[k]? = name[k]? := by
          intro k hk
          simp [List.getElem?_take, hk]
        have htake : ∀ k : Nat, k ≤ pos → (name.take pos).take k = name.take k := by
          intro k hk
          simp [List.take_take, hk]
        have hlt : ∀ k : Nat, (name.take pos)[k]? = some '.' → k < pos := by
          intro k hk
          have := getElem_some_lt _ k '.' hk
          simp only [List.length_take] at this
          omega
        rcases ih (name.take pos) hlen with ⟨k, q, hk, hq, hmax, hres⟩ | ⟨hall, hres⟩
        · left
          have hkp := hlt k hk
          refine ⟨k, q, ?_, ?_, ?_, ?_⟩
          · rw [← hget k hkp]; exact hk
          · rw [← htake k (by omega)]; exact hq
          · intro j hj hjd
            have hjp := hle j hjd
            by_cases hjeq : j = pos
            · subst hjeq; exact hf
            · have hjlt : j < pos := by omega
              rw [← htake j (by omega)]
              exact hmax j hj (by rw [hget j hjlt]; exact hjd)
          · rw [hstep, hres]
        · right
          refine ⟨?_, by rw [hstep, hres]⟩
          intro k hk
          have hkp := hle k hk
          by_cases hkeq : k = pos
          · subst hkeq; exact hf
          · have hklt : k < pos := by omega
            rw [← htake k (by omega)]
            exact hall k (by rw [hget k hklt]; exact hk)

theorem mapFind_mem (m : LoggerMap) (k : Name) (v : Ptr)
    (h : mapFind m k = some v) : (k, v) ∈ m := by
  induction m with
  | nil => simp [mapFind] at h
  | cons e m ih =>
    obtain ⟨k1, v1⟩ := e
    by_cases hk : k1 = k
    · simp only [mapFind, hk, if_true, Option.some.injEq] at h
      simp [hk, h]
    · simp only [mapFind, hk, if_false] at h
      exact List.mem_cons_of_mem _ (ih h)

theorem find_deref (s : Registry) (hwf : s.WF) (name : Name) (q : Ptr)
    (h : find s name = some q) : ∃ pl, s.heap[q]? = some pl := by
  have hlt : q < s.heap.length := hwf (name, q) (mapFind_mem _ _ _ h)
  exact ⟨s.heap[q], by simp [hlt]⟩

/-- The three ways `get` registers a name that is not the root and is not
registered: below a registered prefix, below a registered root, or below a
root that it registers first. -/
theorem get_unregistered (fuel : Nat) (s : Registry) (name : Name) (hwf : s.WF)
    (hn : name ≠ root_) (h : find s name = none) (hfuel : name.length + 3 ≤ fuel) :
    (∃ (k : Nat) (q : Ptr) (pl : Logger), name[k]? = some '.' ∧
        find s (name.take k) = some q ∧
        (∀ j : Nat, k < j → name[j]? = some '.' → find s (name.take j) = none) ∧
        s.heap[q]? = some pl ∧
        get fuel s name =
          (.ok (some s.heap.length),
            ⟨s.heap ++ [⟨name, pl.channel_, pl.level_⟩], (name, s.heap.length) :: s.lmap_⟩)) ∨
    ((∀ k : Nat, name[k]? = some '.' → find s (name.take k) = none) ∧
      ∃ (r : Ptr) (pl : Logger), find s root_ = some r ∧ s.heap[r]? = some pl ∧
        get fuel s name =
          (.ok (some s.heap.length),
            ⟨s.heap ++ [⟨name, pl.channel_, pl.level_⟩], (name, s.heap.length) :: s.lmap_⟩)) ∨
    ((∀ k : Nat, name[k]? = some '.' → find s (name.take k) = none) ∧
      find s root_ = none ∧
      get fuel s name =
        (.ok (some (s.heap.length + 1)),
          ⟨s.heap ++ [⟨root_, none, Message.PRIO_INFORMATION⟩,
              ⟨name, none, Message.PRIO_INFORMATION⟩],
            (name, s.heap.length + 1) :: (root_, s.heap.length) :: s.lmap_⟩)) := by
  obtain ⟨f, rfl⟩ : ∃ f, fuel = f + 1 := ⟨fuel - 1, by omega⟩
  rcases getParent_cases f s name (by omega) with ⟨k, q, hk, hq, hmax, hres⟩ | ⟨hall, hres⟩
  · left
    obtain ⟨pl, hpl⟩ := find_deref s hwf _ q hq
    exact ⟨k, q, pl, hk, hq, hmax, hpl, get_new f s s name q pl hn h hres hpl h⟩
  · right
    cases hroot : find s root_ with
    | some r =>
      left
      obtain ⟨pl, hpl⟩ := find_deref s hwf _ r hroot
      rw [get_found 0 s root_ r hroot] at hres
      exact ⟨hall, r, pl, rfl, hpl, get_new f s s name r pl hn h hres hpl h⟩
    | none =>
      right
      rw [get_root_new 0 s hroot] at hres
      refine ⟨hall, rfl, ?_⟩
      have hnew := get_new f s _ name s.heap.length
        ⟨root_, none, Message.PRIO_INFORMATION⟩ hn h hres (by simp)
        (by
          have hn2 : ¬ root_ = name := fun e => hn e.symm
          simp only [find] at h
          simp [find, mapFind, hn2, h])
      rw [hnew]
      simp

theorem createLogger_new (s : Registry) (name : Name) (channel : ChannelPtr) (level : Int)
    (h : find s name = none) :
    createLogger s name channel level =
      (.ok (some s.heap.length),
        ⟨s.heap ++ [⟨name, channel, level⟩], (name, s.heap.length) :: s.lmap_⟩) := by
  have h2 := add_alloc s name channel level h
  simp only [createLogger, h]
  rw [h2]
  simp [allocLogger]

theorem createLogger_found (s : Registry) (name : Name) (channel : ChannelPtr) (level : Int)
    (p : Ptr) (h : find s name = some p) :
    createLogger s name channel level = (.error .alreadyExists, s) := by
  simp [createLogger, h]

/-- Registering a newly allocated object keeps the map's addresses valid. -/
theorem WF_register (s : Registry) (hwf : s.WF) (name : Name) (l : Logger) :
    Registry.WF ⟨s.heap ++ [l], (name, s.heap.length) :: s.lmap_⟩ := by
  intro e he
  simp only [List.mem_cons] at he
  simp only [List.length_append, List.length_singleton]
  rcases he with rfl | he
  · simp
  · exact Nat.lt_succ_of_lt (hwf e he)

theorem find_register (s : Registry) (name : Name) (l : Logger) (m : Name) :
    find ⟨s.heap ++ [l], (name, s.heap.length) :: s.lmap_⟩ m =
      if name = m then some s.heap.length else find s m := by
  simp [find, mapFind]

/-- The fields of the logger `get` creates for an unregistered name below the
root, in terms of the registry before the call. -/
theorem getLogger_inherits_aux (s : Registry) (hwf : s.WF) (n : Name) (hn : n ≠ [])
    (hfree : find s n = none) :
    ∃ (p : Ptr) (s' : Registry) (l : Logger),
      getLogger s n = (.ok (some p), s') ∧ s.heap.length ≤ p ∧
      deref s' (some p) = some l ∧
      (∀ (k : Nat) (q : Ptr), n[k]? = some '.' → find s (n.take k) = some q →
        (∀ j : Nat, k < j → n[j]? = some '.' → find s (n.take j) = none) →
        ∃ a, deref s (some q) = some a ∧
          l.getLevel = a.getLevel ∧ l.getChannel = a.getChannel) ∧
      ((∀ k : Nat, n[k]? = some '.' → find s (n.take k) = none) →
        (∀ r : Ptr, find s root_ = some r →
          ∃ a, deref s (some r) = some a ∧
            l.getLevel = a.getLevel ∧ l.getChannel = a.getChannel) ∧
        (find s root_ = none →
          l.getLevel = Message.PRIO_INFORMATION ∧ l.getChannel = none)) := by
  rcases get_unregistered (fuelFor n) s n hwf hn hfree (by simp [fuelFor]) with
    ⟨k, q, pl, hk, hq, hmax, hpl, hres⟩ | ⟨hall, r, pl, hr, hpl, hres⟩ | ⟨hall, hr, hres⟩
  · refine ⟨s.heap.length, _, ⟨n, pl.channel_, pl.level_⟩, hres, le_refl _, by simp [deref], ?_, ?_⟩
    · intro k2 q2 hk2 hq2 hmax2
      have hkk : k2 = k := by
        rcases Nat.lt_trichotomy k2 k with hlt | heq | hgt
        · have := hmax2 k hlt hk
          rw [hq] at this
          exact absurd this (by simp)
        · exact heq
        · have := hmax k2 hgt hk2
          rw [hq2] at this
          exact absurd this (by simp)
      subst hkk
      rw [hq] at hq2
      simp only [Option.some.injEq] at hq2
      subst hq2
      exact ⟨pl, by simpa [deref] using hpl, rfl, rfl⟩
    · intro hall
      have := hall k hk
      rw [hq] at this
      exact absurd this (by simp)
  · refine ⟨s.heap.length, _, ⟨n, pl.channel_, pl.level_⟩, hres, le_refl _, by simp [deref], ?_, ?_⟩
    · intro k2 q2 hk2 hq2 _
      have := hall k2 hk2
      rw [hq2] at this
      exact absurd this (by simp)
    · intro _
      refine ⟨?_, ?_⟩
      · intro r2 hr2
        rw [hr] at hr2
        simp only [Option.some.injEq] at hr2
        subst hr2
        exact ⟨pl, by simpa [deref] using hpl, rfl, rfl⟩
      · intro hnone
        rw [hr] at hnone
        exact absurd hnone (by simp)
  · refine ⟨s.heap.length + 1, _, ⟨n, none, Message.PRIO_INFORMATION⟩, hres, by omega,
      by simp only [deref]; exact heap_second _ _ _, ?_, ?_⟩
    · intro k2 q2 hk2 hq2 _
      have := hall k2 hk2
      rw [hq2] at this
      exact absurd this (by simp)
    · intro _
      refine ⟨?_, ?_⟩
      · intro r2 hr2
        rw [hr] at hr2
        exact absurd hr2 (by simp)
      · intro _
        exact ⟨rfl, rfl⟩

/-! ## Entries are never removed or replaced -/

theorem mapInsert_mono (m : LoggerMap) (k : Name) (v : Ptr) (n : Name) (p : Ptr)
    (h : mapFind m n = some p) : mapFind (mapInsert m k v) n = some p := by
  unfold mapInsert
  cases hk : mapFind m k with
  | some w => exact h
  | none =>
    by_cases hkn : k = n
    · subst hkn
      rw [hk] at h
      exact absurd h (by simp)
    · simp [mapFind, hkn, h]

theorem add_mono (s : Registry) (logger : LoggerPtr) (n : Name) (p : Ptr)
    (h : find s n = some p) : find (add s logger).2 n = some p := by
  unfold add
  split
  · exact mapInsert_mono _ _ _ _ _ h
  · exact h

theorem callOn_find (s : Registry) (handle : LoggerPtr) (m : Logger → Logger) (n : Name) :
    find (callOn s handle m).2 n = find s n := by
  unfold callOn
  split <;> rfl

theorem createLogger_mono (s : Registry) (name : Name) (channel : ChannelPtr) (level : Int)
    (n : Name) (p : Ptr) (h : find s n = some p) :
    find (createLogger s name channel level).2 n = some p := by
  unfold createLogger
  split
  · exact h
  · have h1 : find (allocLogger s name channel level).2 n = some p := h
    have h2 := add_mono _ (allocLogger s name channel level).1 n p h1
    simp only
    split
    · rename_i e s2 heq
      rw [heq] at h2
      exact h2
    · rename_i u s2 heq
      rw [heq] at h2
      exact h2

theorem get_getParent_mono (n : Name) (p : Ptr) (fuel : Nat) :
    (∀ (s : Registry) (name : Name), find s n = some p →
      find (get fuel s name).2 n = some p) ∧
    (∀ (s : Registry) (name : Name), find s n = some p →
      find (getParent fuel s name).2 n = some p) := by
  induction fuel with
  | zero => exact ⟨fun s name h => by simpa [get] using h,
      fun s name h => by simpa [getParent] using h⟩
  | succ f ih =>
    obtain ⟨ihg, ihp⟩ := ih
    refine ⟨?_, ?_⟩
    · intro s name h
      simp only [get]
      split
      · exact h
      · split
        · have h1 : find (allocLogger s name none Message.PRIO_INFORMATION).2 n = some p := h
          have h2 := add_mono _ (allocLogger s name none Message.PRIO_INFORMATION).1 n p h1
          split
          · rename_i e s2 heq
            rw [heq] at h2
            exact h2
          · rename_i u s2 heq
            rw [heq] at h2
            exact h2
        · have h0 := ihp s name h
          split
          · rename_i e s1 heq
            rw [heq] at h0
            exact h0
          · rename_i parent s1 heq
            rw [heq] at h0
            split
            · exact h0
            · rename_i pl hpl
              have h1 : find (allocLogger s1 name pl.getChannel pl.getLevel).2 n = some p := h0
              have h2 := add_mono _ (allocLogger s1 name pl.getChannel pl.getLevel).1 n p h1
              split
              · rename_i e s2 heq2
                rw [heq2] at h2
                exact h2
              · rename_i u s2 heq2
                rw [heq2] at h2
                exact h2
    · intro s name h
      simp only [getParent]
      split
      · split
        · exact h
        · exact ihp s _ h
      · exact ihg s _ h

theorem step_mono (s : Registry) (op : Op) (n : Name) (p : Ptr) (h : find s n = some p) :
    find (step s op) n = some p := by
  cases op with
  | find name => exact h
  | getLogger name => exact (get_getParent_mono n p _).1 s name h
  | getRootLogger => exact (get_getParent_mono n p _).1 s root_ h
  | createLogger name channel level => exact createLogger_mono s name channel level n p h
  | setLevel handle level => simp only [step]; rw [callOn_find]; exact h
  | setChannel handle channel => simp only [step]; rw [callOn_find]; exact h

theorem run_mono (ops : List Op) (s : Registry) (n : Name) (p : Ptr)
    (h : find s n = some p) : find (run s ops) n = some p := by
  induction ops generalizing s with
  | nil => exact h
  | cons op ops ih => exact ih (step s op) (step_mono s op n p h)

/-! ## `getLogger` returns a registered logger -/

theorem WF_register2 (s : Registry) (hwf : s.WF) (n1 n2 : Name) (a b : Logger) :
    Registry.WF ⟨s.heap ++ [a, b],
      (n2, s.heap.length + 1) :: (n1, s.heap.length) :: s.lmap_⟩ := by
  intro e he
  simp only [List.mem_cons] at he
  simp only [List.length_append, List.length_cons, List.length_nil]
  rcases he with rfl | rfl | he
  · exact Nat.lt_succ_self _
  · exact Nat.lt_succ_of_lt (Nat.lt_succ_self _)
  · exact Nat.lt_succ_of_lt (Nat.lt_succ_of_lt (hwf e he))

theorem getLogger_ok (s : Registry) (hwf : s.WF) (n : Name) :
    ∃ (p : Ptr) (s1 : Registry), getLogger s n = (.ok (some p), s1) ∧
      find s1 n = some p ∧ p < s1.heap.length ∧ s1.WF := by
  cases h : find s n with
  | some p =>
    exact ⟨p, s, get_found _ s n p h, h, hwf (n, p) (mapFind_mem _ _ _ h), hwf⟩
  | none =>
    by_cases hn : n = root_
    · subst hn
      refine ⟨s.heap.length, _, get_root_new _ s h, ?_, ?_, WF_register s hwf _ _⟩
      · rw [find_register, if_pos rfl]
      · simp
    · rcases get_unregistered (fuelFor n) s n hwf hn h (by simp [fuelFor]) with
        ⟨k, q, pl, _, _, _, _, hres⟩ | ⟨_, r, pl, _, _, hres⟩ | ⟨_, _, hres⟩
      · refine ⟨s.heap.length, _, hres, ?_, ?_, WF_register s hwf _ _⟩
        · rw [find_register, if_pos rfl]
        · simp
      · refine ⟨s.heap.length, _, hres, ?_, ?_, WF_register s hwf _ _⟩
        · rw [find_register, if_pos rfl]
        · simp
      · refine ⟨s.heap.length + 1, _, hres, ?_, ?_, WF_register2 s hwf _ _ _ _⟩
        · simp [find, mapFind]
        · simp

theorem callOn_ok (s : Registry) (p : Ptr) (m : Logger → Logger) (h : p < s.heap.length) :
    callOn s (some p) m = (.ok (), ⟨s.heap.set p (m s.heap[p]), s.lmap_⟩) ∧
      deref ⟨s.heap.set p (m s.heap[p]), s.lmap_⟩ (some p) = some (m s.heap[p]) := by
  constructor
  · simp [callOn, deref, h]
  · simp [deref, h]

/-! ## Lookups in a registry without entries -/

theorem find_nil (s : Registry) (h : s.lmap_ = []) (m : Name) : find s m = none := by
  simp [find, h, mapFind]

theorem WF_nil (s : Registry) (h : s.lmap_ = []) : s.WF := by
  intro e he
  rw [h] at he
  exact absurd he (List.not_mem_nil e)

theorem getParent_nil (fuel : Nat) (s : Registry) (h : s.lmap_ = []) (n : Name)
    (hfuel : n.length + 2 ≤ fuel) :
    getParent fuel s n =
      (.ok (some s.heap.length),
        ⟨s.heap ++ [⟨root_, none, Message.PRIO_INFORMATION⟩], [(root_, s.heap.length)]⟩) := by
  rcases getParent_cases fuel s n hfuel with ⟨k, q, _, hq, _, _⟩ | ⟨_, hres⟩
  · rw [find_nil s h] at hq
    exact absurd hq (by simp)
  · rw [hres, get_root_new 0 s (find_nil s h root_), h]

theorem get_nil (fuel : Nat) (s : Registry) (h : s.lmap_ = []) (n : Name) (hn : n ≠ root_)
    (hfuel : n.length + 3 ≤ fuel) :
    get fuel s n =
      (.ok (some (s.heap.length + 1)),
        ⟨s.heap ++ [⟨root_, none, Message.PRIO_INFORMATION⟩,
            ⟨n, none, Message.PRIO_INFORMATION⟩],
          [(n, s.heap.length + 1), (root_, s.heap.length)]⟩) := by
  rcases get_unregistered fuel s n (WF_nil s h) hn (find_nil s h n) hfuel with
    ⟨k, q, pl, _, hq, _, _, _⟩ | ⟨_, r, pl, hr, _, _⟩ | ⟨_, _, hres⟩
  · rw [find_nil s h] at hq
    exact absurd hq (by simp)
  · rw [find_nil s h] at hr
    exact absurd hr (by simp)
  · rw [hres, h]

/-- After a lookup in a registry without entries the logger has the defaults
of the root. -/
theorem getLogger_nil (s : Registry) (h : s.lmap_ = []) (n : Name) :
    ∃ (p : Ptr) (s' : Registry) (l : Logger), getLogger s n = (.ok (some p), s') ∧
      deref s' (some p) = some l ∧ l.getName = n ∧
      l.getLevel = Message.PRIO_INFORMATION ∧ l.getChannel = none ∧
      (s'.lmap_ = [(root_, s.heap.length)] ∨
        s'.lmap_ = [(n, s.heap.length + 1), (root_, s.heap.length)]) := by
  by_cases hn : n = root_
  · subst hn
    refine ⟨s.heap.length, _, ⟨root_, none, Message.PRIO_INFORMATION⟩,
      get_root_new _ s (find_nil s h root_), ?_, rfl, rfl, rfl, ?_⟩
    · simp [deref]
    · left; simp [h]
  · refine ⟨s.heap.length + 1, _, ⟨n, none, Message.PRIO_INFORMATION⟩,
      get_nil _ s h n hn (by simp [fuelFor]), ?_, rfl, rfl, rfl, Or.inr rfl⟩
    simp only [deref]
    exact heap_second _ _ _

/-- With enough recursion depth `getParent` returns a pointer to an object. -/
theorem getParent_ok (fuel : Nat) (s : Registry) (hwf : s.WF) (name : Name)
    (hfuel : name.length + 2 ≤ fuel) :
    ∃ (q : Ptr) (s1 : Registry) (pl : Logger),
      getParent fuel s name = (.ok (some q), s1) ∧ deref s1 (some q) = some pl := by
  rcases getParent_cases fuel s name hfuel with ⟨k, q, _, hq, _, hres⟩ | ⟨_, hres⟩
  · obtain ⟨pl, hpl⟩ := find_deref s hwf _ q hq
    exact ⟨q, s, pl, hres, hpl⟩
  · cases hroot : find s root_ with
    | some r =>
      obtain ⟨pl, hpl⟩ := find_deref s hwf _ r hroot
      rw [get_found 0 s root_ r hroot] at hres
      exact ⟨r, s, pl, hres, hpl⟩
    | none =>
      rw [get_root_new 0 s hroot] at hres
      exact ⟨s.heap.length, _, ⟨root_, none, Message.PRIO_INFORMATION⟩, hres, by simp [deref]⟩

/-! ## The claims -/

/-- C1: for every registry state and every non-empty name `n` that is not
registered, `getLogger(n)` returns a newly created logger whose threshold and
channel are those of the logger registered under the longest prefix of `n`
that ends just before a `.`; when no such prefix is registered they are those
of the root logger, or `INFORMATION` and no channel when the root is absent.
In particular after `createLogger("svc", chanA, WARNING)` the logger
`getLogger("svc.worker")` has threshold `WARNING` and channel `chanA`. -/
theorem getLogger_inherits_nearest_ancestor (s : Registry) (hwf : s.WF) :
    (∀ n : Name, n ≠ [] → find s n = none →
      ∃ (p : Ptr) (s' : Registry) (l : Logger),
        getLogger s n = (.ok (some p), s') ∧ s.heap.length ≤ p ∧
        deref s' (some p) = some l ∧
        (∀ (k : Nat) (q : Ptr), n[k]? = some '.' → find s (n.take k) = some q →
          (∀ j : Nat, k < j → n[j]? = some '.' → find s (n.take j) = none) →
          ∃ a, deref s (some q) = some a ∧
            l.getLevel = a.getLevel ∧ l.getChannel = a.getChannel) ∧
        ((∀ k : Nat, n[k]? = some '.' → find s (n.take k) = none) →
          (∀ r : Ptr, find s root_ = some r →
            ∃ a, deref s (some r) = some a ∧
              l.getLevel = a.getLevel ∧ l.getChannel = a.getChannel) ∧
          (find s root_ = none →
            l.getLevel = Message.PRIO_INFORMATION ∧ l.getChannel = none))) ∧
    (∀ chanA : ChannelPtr, find s "svc".toList = none → find s "svc.worker".toList = none →
      ∃ (p1 : Ptr) (s1 : Registry) (p2 : Ptr) (s2 : Registry) (l : Logger),
        createLogger s "svc".toList chanA Message.PRIO_WARNING = (.ok (some p1), s1) ∧
        getLogger s1 "svc.worker".toList = (.ok (some p2), s2) ∧ s1.heap.length ≤ p2 ∧
        deref s2 (some p2) = some l ∧
        l.getLevel = Message.PRIO_WARNING ∧ l.getChannel = chanA) := by
  refine ⟨fun n hn hfree => getLogger_inherits_aux s hwf n hn hfree, ?_⟩
  intro chanA hsvc hworker
  have hwf1 := WF_register s hwf "svc".toList ⟨"svc".toList, chanA, Message.PRIO_WARNING⟩
  have hfree1 : find ⟨s.heap ++ [⟨"svc".toList, chanA, Message.PRIO_WARNING⟩],
      ("svc".toList, s.heap.length) :: s.lmap_⟩ "svc.worker".toList = none := by
    rw [find_register, if_neg (by decide)]
    exact hworker
  obtain ⟨p2, s2, l, hget, hnew, hl, hanc, _⟩ :=
    getLogger_inherits_aux _ hwf1 "svc.worker".toList (by decide) hfree1
  obtain ⟨a, ha, hlev, hchan⟩ := hanc 3 s.heap.length (by decide)
    (by rw [find_register, if_pos (by decide)])
    (by
      intro j hj hjd
      have hlt := getElem_some_lt _ j '.' hjd
      have hlt2 : j < 10 := hlt
      exfalso
      interval_cases j <;> revert hjd <;> decide)
  simp only [deref, List.getElem?_concat_length, Option.some.injEq] at ha
  subst ha
  exact ⟨s.heap.length, _, p2, s2, l, createLogger_new s _ chanA _ hsvc, hget, hnew, hl,
    hlev, hchan⟩

/-- The witness of C1: on the empty registry, with channel `7`. -/
theorem getLogger_inherits_nearest_ancestor_witness :
    ∃ (p1 : Ptr) (s1 : Registry) (p2 : Ptr) (s2 : Registry) (l : Logger),
      createLogger Registry.empty "svc".toList (some 7) Message.PRIO_WARNING =
        (.ok (some p1), s1) ∧
      getLogger s1 "svc.worker".toList = (.ok (some p2), s2) ∧ s1.heap.length ≤ p2 ∧
      deref s2 (some p2) = some l ∧
      l.getLevel = Message.PRIO_WARNING ∧ l.getChannel = some 7 :=
  (getLogger_inherits_nearest_ancestor Registry.empty (by decide)).2 (some 7)
    (by decide) (by decide)

/-- C2: for every registry state and every name `n`, `getLogger(n)` returns a
logger, and a second `getLogger(n)`, directly after it or after any sequence
of operations other than `shutdown`, returns the same address and leaves the
state as it finds it; a `setLevel` or `setChannel` through the first handle is
read back by `getLevel` or `getChannel` through the second. -/
theorem getLogger_identity_stable (s : Registry) (hwf : s.WF) (n : Name) :
    ∃ (p : Ptr) (s1 : Registry), getLogger s n = (.ok (some p), s1) ∧
      getLogger s1 n = (.ok (some p), s1) ∧
      (∀ ops : List Op, getLogger (run s1 ops) n = (.ok (some p), run s1 ops)) ∧
      (∀ level : Int, ∃ s2 : Registry,
        callOn s1 (some p) (fun l => l.setLevel level) = (.ok (), s2) ∧
        getLogger s2 n = (.ok (some p), s2) ∧
        (deref s2 (some p)).map Logger.getLevel = some level) ∧
      (∀ channel : ChannelPtr, ∃ s2 : Registry,
        callOn s1 (some p) (fun l => l.setChannel channel) = (.ok (), s2) ∧
        getLogger s2 n = (.ok (some p), s2) ∧
        (deref s2 (some p)).map Logger.getChannel = some channel) := by
  obtain ⟨p, s1, hres, hfind, hlt, _⟩ := getLogger_ok s hwf n
  refine ⟨p, s1, hres, get_found _ s1 n p hfind, ?_, ?_, ?_⟩
  · intro ops
    exact get_found _ _ n p (run_mono ops s1 n p hfind)
  · intro level
    obtain ⟨hcall, hd⟩ := callOn_ok s1 p (fun l => l.setLevel level) hlt
    refine ⟨_, hcall, get_found _ _ n p hfind, ?_⟩
    rw [hd]
    rfl
  · intro channel
    obtain ⟨hcall, hd⟩ := callOn_ok s1 p (fun l => l.setChannel channel) hlt
    refine ⟨_, hcall, get_found _ _ n p hfind, ?_⟩
    rw [hd]
    rfl

/-- The witness of C2: the name `a.b` on the empty registry. -/
theorem getLogger_identity_stable_witness :
    ∃ (p : Ptr) (s1 : Registry), getLogger Registry.empty "a.b".toList = (.ok (some p), s1) ∧
      getLogger s1 "a.b".toList = (.ok (some p), s1) ∧
      (∀ ops : List Op, getLogger (run s1 ops) "a.b".toList = (.ok (some p), run s1 ops)) ∧
      (∀ level : Int, ∃ s2 : Registry,
        callOn s1 (some p) (fun l => l.setLevel level) = (.ok (), s2) ∧
        getLogger s2 "a.b".toList = (.ok (some p), s2) ∧
        (deref s2 (some p)).map Logger.getLevel = some level) ∧
      (∀ channel : ChannelPtr, ∃ s2 : Registry,
        callOn s1 (some p) (fun l => l.setChannel channel) = (.ok (), s2) ∧
        getLogger s2 "a.b".toList = (.ok (some p), s2) ∧
        (deref s2 (some p)).map Logger.getChannel = some channel) :=
  getLogger_identity_stable Registry.empty (by decide) "a.b".toList

/-- C3: `createLogger(name, channel, level)` throws "Already exists" exactly
when `name` is registered, and then ends in the state it started in; so after
a successful `createLogger("x", chan, INFORMATION)` the call
`createLogger("x", chan2, ERROR)` throws, and `x` still maps to the first
logger with channel `chan` and threshold `INFORMATION`. -/
theorem createLogger_alreadyExists_iff (s : Registry) (name : Name) (channel : ChannelPtr)
    (level : Int) :
    ((createLogger s name channel level).1 = .error .alreadyExists ↔ find s name ≠ none) ∧
    ((createLogger s name channel level).1 = .error .alreadyExists →
      (createLogger s name channel level).2 = s) ∧
    (∀ chan chan2 : ChannelPtr, find s "x".toList = none →
      ∃ (p : Ptr) (s1 : Registry),
        createLogger s "x".toList chan Message.PRIO_INFORMATION = (.ok (some p), s1) ∧
        createLogger s1 "x".toList chan2 Message.PRIO_ERROR = (.error .alreadyExists, s1) ∧
        find s1 "x".toList = some p ∧
        deref s1 (some p) = some ⟨"x".toList, chan, Message.PRIO_INFORMATION⟩) := by
  refine ⟨?_, ?_, ?_⟩
  · cases h : find s name with
    | some p => simp [createLogger_found s name channel level p h]
    | none => simp [createLogger_new s name channel level h]
  · cases h : find s name with
    | some p => simp [createLogger_found s name channel level p h]
    | none => simp [createLogger_new s name channel level h]
  · intro chan chan2 hx
    have hf : find ⟨s.heap ++ [⟨"x".toList, chan, Message.PRIO_INFORMATION⟩],
        ("x".toList, s.heap.length) :: s.lmap_⟩ "x".toList = some s.heap.length := by
      rw [find_register, if_pos rfl]
    exact ⟨s.heap.length, _, createLogger_new s _ chan _ hx,
      createLogger_found _ _ chan2 _ _ hf, hf, by simp [deref]⟩

/-- The witness of C3: the two calls on the empty registry, with channels `1`
and `2`. -/
theorem createLogger_alreadyExists_iff_witness :
    ∃ (p : Ptr) (s1 : Registry),
      createLogger Registry.empty "x".toList (some 1) Message.PRIO_INFORMATION =
        (.ok (some p), s1) ∧
      createLogger s1 "x".toList (some 2) Message.PRIO_ERROR = (.error .alreadyExists, s1) ∧
      find s1 "x".toList = some p ∧
      deref s1 (some p) = some ⟨"x".toList, some 1, Message.PRIO_INFORMATION⟩ :=
  (createLogger_alreadyExists_iff Registry.empty "x".toList (some 1)
    Message.PRIO_INFORMATION).2.2 (some 1) (some 2) (by decide)

/-- C4: for every registry state and every name `n` not registered in it, the
root name included, `createLogger(n, channel, level)` returns a newly created
logger with name `n` and exactly the given channel and level, whatever is
registered above `n`, and `find(n)` then returns that logger. -/
theorem createLogger_exact_fields (s : Registry) (n : Name) (channel : ChannelPtr)
    (level : Int) (hfree : find s n = none) :
    ∃ (p : Ptr) (s1 : Registry),
      createLogger s n channel level = (.ok (some p), s1) ∧ s.heap.length ≤ p ∧
      deref s1 (some p) = some ⟨n, channel, level⟩ ∧
      (deref s1 (some p)).map Logger.getName = some n ∧
      (deref s1 (some p)).map Logger.getChannel = some channel ∧
      (deref s1 (some p)).map Logger.getLevel = some level ∧
      find s1 n = some p := by
  have hd : deref ⟨s.heap ++ [⟨n, channel, level⟩], (n, s.heap.length) :: s.lmap_⟩
      (some s.heap.length) = some ⟨n, channel, level⟩ := by simp [deref]
  refine ⟨s.heap.length, _, createLogger_new s n channel level hfree, le_refl _, hd, ?_, ?_, ?_,
    ?_⟩
  · rw [hd]; rfl
  · rw [hd]; rfl
  · rw [hd]; rfl
  · rw [find_register, if_pos rfl]

/-- The witness of C4: the name `svc.worker` below a registered `svc` that has
another level and another channel. -/
theorem createLogger_exact_fields_witness :
    find ⟨[⟨"svc".toList, some 1, Message.PRIO_WARNING⟩], [("svc".toList, 0)]⟩
      "svc.worker".toList = none ∧
    ∃ (p : Ptr) (s1 : Registry),
      createLogger ⟨[⟨"svc".toList, some 1, Message.PRIO_WARNING⟩], [("svc".toList, 0)]⟩
        "svc.worker".toList (some 2) Message.PRIO_ERROR = (.ok (some p), s1) ∧
      1 ≤ p ∧
      deref s1 (some p) = some ⟨"svc.worker".toList, some 2, Message.PRIO_ERROR⟩ ∧
      (deref s1 (some p)).map Logger.getName = some "svc.worker".toList ∧
      (deref s1 (some p)).map Logger.getChannel = some (some 2) ∧
      (deref s1 (some p)).map Logger.getLevel = some Message.PRIO_ERROR ∧
      find s1 "svc.worker".toList = some p :=
  ⟨by decide,
    createLogger_exact_fields
      ⟨[⟨"svc".toList, some 1, Message.PRIO_WARNING⟩], [("svc".toList, 0)]⟩
      "svc.worker".toList (some 2) Message.PRIO_ERROR (by decide)⟩

/-- C5, as stated, fails: on the empty registry `getLogger("a.b.c")` registers
the root name next to `a.b.c`, so the names registered afterwards are not the
names before plus `a.b.c`. -/
theorem getLogger_only_requested_counterexample :
    find Registry.empty "a.b.c".toList = none ∧
    (getLogger Registry.empty "a.b.c".toList).2.lmap_ = [("a.b.c".toList, 1), (root_, 0)] ∧
    ¬ (∀ m : Name, (find (getLogger Registry.empty "a.b.c".toList).2 m ≠ none ↔
        (find Registry.empty m ≠ none ∨ m = "a.b.c".toList))) := by
  refine ⟨by decide, by decide, fun h => ?_⟩
  have h1 := (h root_).1 (by decide)
  revert h1
  decide

/-- C5, amended: for every registry state and every name `n` not registered in
it, the names registered after `getLogger(n)` are exactly the names registered
before, `n`, and the root name when no prefix of `n` that ends just before a
`.` was registered; no other name is added. -/
theorem getLogger_registered_names (s : Registry) (hwf : s.WF) (n : Name)
    (hfree : find s n = none) :
    ∃ (p : Ptr) (s' : Registry), getLogger s n = (.ok (some p), s') ∧
      ∀ m : Name, (find s' m ≠ none ↔
        (find s m ≠ none ∨ m = n ∨
          (m = root_ ∧ ∀ k : Nat, n[k]? = some '.' → find s (n.take k) = none))) := by
  by_cases hn : n = root_
  · subst hn
    refine ⟨s.heap.length, _, get_root_new _ s hfree, ?_⟩
    intro m
    rw [find_register]
    by_cases hm : root_ = m
    · subst hm
      simp
    · have hm2 : ¬ m = root_ := fun e => hm e.symm
      simp [hm, hm2]
  · rcases get_unregistered (fuelFor n) s n hwf hn hfree (by simp [fuelFor]) with
      ⟨k, q, pl, hk, hq, _, _, hres⟩ | ⟨hall, r, pl, hr, _, hres⟩ | ⟨hall, hr, hres⟩
    · refine ⟨s.heap.length, _, hres, ?_⟩
      intro m
      rw [find_register]
      by_cases hm : n = m
      · subst hm
        simp
      · have hm2 : ¬ m = n := fun e => hm e.symm
        simp only [hm, hm2, if_false, false_or]
        constructor
        · intro h; exact Or.inl h
        · rintro (h | ⟨_, h⟩)
          · exact h
          · have := h k hk
            rw [hq] at this
            exact absurd this (by simp)
    · refine ⟨s.heap.length, _, hres, ?_⟩
      intro m
      rw [find_register]
      by_cases hm : n = m
      · subst hm
        simp
      · have hm2 : ¬ m = n := fun e => hm e.symm
        simp only [hm, hm2, if_false, false_or]
        constructor
        · intro h; exact Or.inl h
        · rintro (h | ⟨rfl, _⟩)
          · exact h
          · rw [hr]; simp
    · refine ⟨s.heap.length + 1, _, hres, ?_⟩
      intro m
      by_cases hm : n = m
      · subst hm
        simp [find, mapFind]
      · have hm2 : ¬ m = n := fun e => hm e.symm
        by_cases hm3 : root_ = m
        · subst hm3
          simp only [find, mapFind, hm, if_false, if_true, ne_eq, not_false_eq_true,
            reduceCtorEq, true_iff]
          exact Or.inr (Or.inr ⟨trivial, hall⟩)
        · have hm4 : ¬ m = root_ := fun e => hm3 e.symm
          simp [find, mapFind, hm, hm2, hm3, hm4]

/-- The witness of C5, amended: after `getLogger("a.b.c")` on the empty
registry exactly `a.b.c` and the root name are registered. -/
theorem getLogger_registered_names_witness :
    ∃ (p : Ptr) (s' : Registry),
      getLogger Registry.empty "a.b.c".toList = (.ok (some p), s') ∧
      ∀ m : Name, (find s' m ≠ none ↔ (m = "a.b.c".toList ∨ m = root_)) := by
  obtain ⟨p, s', h1, h2⟩ :=
    getLogger_registered_names Registry.empty (by decide) "a.b.c".toList (by decide)
  refine ⟨p, s', h1, fun m => ?_⟩
  rw [h2 m]
  simp [find, Registry.empty, mapFind]

/-- C6: starting from a registry without entries, for every name `n`,
`getLogger(n)` gives a logger with the root defaults, threshold `INFORMATION`
and no channel; for `n` other than the root name the ancestor `getParent`
resolves is the logger registered under the root name, with those defaults;
and afterwards `find` reports absent for every non-empty proper prefix of `n`
that ends just before a `.`. -/
theorem getLogger_from_empty (s : Registry) (hempty : s.lmap_ = []) (n : Name) :
    ∃ (p : Ptr) (s' : Registry) (l : Logger), getLogger s n = (.ok (some p), s') ∧
      deref s' (some p) = some l ∧
      l.getLevel = Message.PRIO_INFORMATION ∧ l.getChannel = none ∧
      (n ≠ root_ → ∃ (r : Ptr) (sr : Registry),
        getParent (n.length + 2) s n = (.ok (some r), sr) ∧ find sr root_ = some r ∧
        find s' root_ = some r ∧
        deref sr (some r) = some ⟨root_, none, Message.PRIO_INFORMATION⟩) ∧
      (∀ k : Nat, 0 < k → n[k]? = some '.' → find s' (n.take k) = none) := by
  obtain ⟨p, s', l, hres, hl, _, hlev, hchan, hmap⟩ := getLogger_nil s hempty n
  refine ⟨p, s', l, hres, hl, hlev, hchan, ?_, ?_⟩
  · intro hn
    have hres2 := get_nil (fuelFor n) s hempty n hn (by simp [fuelFor])
    have hs' : s' = _ := (Prod.mk.inj (hres.symm.trans hres2)).2
    refine ⟨s.heap.length, _, getParent_nil _ s hempty n (le_refl _), ?_, ?_, ?_⟩
    · simp [find, mapFind]
    · have hn2 : ¬ n = root_ := hn
      rw [hs']
      simp [find, mapFind, hn2]
    · simp [deref]
  · intro k hk hdot
    have hlt := getElem_some_lt n k '.' hdot
    have h1 : n.take k ≠ n := by
      intro e
      have := congrArg List.length e
      simp only [List.length_take] at this
      omega
    have h2 : n.take k ≠ root_ := by
      intro e
      have := congrArg List.length e
      simp only [List.length_take, root_, List.length_nil] at this
      omega
    have h1s : ¬ n = n.take k := fun e => h1 e.symm
    have h2s : ¬ root_ = n.take k := fun e => h2 e.symm
    rcases hmap with hm | hm
    · simp [find, hm, mapFind, h2s]
    · simp [find, hm, mapFind, h1s, h2s]

/-- The witness of C6: the name `a.b.c` on the empty registry, where `a` and
`a.b` stay absent. -/
theorem getLogger_from_empty_witness :
    ∃ (p : Ptr) (s' : Registry) (l : Logger),
      getLogger Registry.empty "a.b.c".toList = (.ok (some p), s') ∧
      deref s' (some p) = some l ∧
      l.getLevel = Message.PRIO_INFORMATION ∧ l.getChannel = none ∧
      find s' "a".toList = none ∧ find s' "a.b".toList = none := by
  obtain ⟨p, s', l, h1, h2, h3, h4, _, h6⟩ :=
    getLogger_from_empty Registry.empty rfl "a.b.c".toList
  exact ⟨p, s', l, h1, h2, h3, h4, h6 1 (by decide) (by decide), h6 3 (by decide) (by decide)⟩

/-- C7: for every registry state, whatever loggers, thresholds and channels it
holds, and every name `n`, `getLogger(n)` after `shutdown()` gives a logger
with threshold `INFORMATION` and no channel. -/
theorem getLogger_after_shutdown (s : Registry) (n : Name) :
    ∃ (p : Ptr) (s' : Registry) (l : Logger),
      getLogger (shutdown s) n = (.ok (some p), s') ∧ deref s' (some p) = some l ∧
      l.getName = n ∧ l.getLevel = Message.PRIO_INFORMATION ∧ l.getChannel = none := by
  obtain ⟨p, s', l, hres, hl, hname, hlev, hchan, _⟩ := getLogger_nil (shutdown s) rfl n
  exact ⟨p, s', l, hres, hl, hname, hlev, hchan⟩

/-- C8: `shutdown()` is total and clears all entries: afterwards `find(n)` is
absent for every name `n`; on a registry without entries it changes nothing,
and a second `shutdown()` gives the state of the first. -/
theorem shutdown_clears_idempotent (s : Registry) :
    (∀ n : Name, find (shutdown s) n = none) ∧ (shutdown s).lmap_ = [] ∧
    (s.lmap_ = [] → shutdown s = s) ∧ shutdown (shutdown s) = shutdown s := by
  refine ⟨fun n => find_nil _ rfl n, rfl, ?_, rfl⟩
  intro h
  cases s with
  | mk heap lmap_ =>
    simp only at h
    subst h
    rfl

/-- The witness of C8: a registry with two entries, and the empty one. -/
theorem shutdown_clears_idempotent_witness :
    (∀ n : Name, find (shutdown ⟨[⟨root_, none, 2⟩, ⟨"a".toList, some 1, 4⟩],
      [("a".toList, 1), (root_, 0)]⟩) n = none) ∧
    shutdown Registry.empty = Registry.empty :=
  ⟨(shutdown_clears_idempotent ⟨[⟨root_, none, 2⟩, ⟨"a".toList, some 1, 4⟩],
      [("a".toList, 1), (root_, 0)]⟩).1,
    (shutdown_clears_idempotent Registry.empty).2.2.1 rfl⟩

/-- C9: `getRootLogger()` is `getLogger("")` and returns a logger in every
registry state; when the root name is not registered, as in the empty
registry or after `shutdown()`, the logger is new, has name `""`, threshold
`INFORMATION` and no channel, and is registered under `""`. -/
theorem getRootLogger_defaults (s : Registry) :
    getRootLogger s = getLogger s root_ ∧
    (∃ (p : Ptr) (s' : Registry),
      getRootLogger s = (.ok (some p), s') ∧ find s' root_ = some p) ∧
    (find s root_ = none → ∃ (p : Ptr) (s' : Registry),
      getRootLogger s = (.ok (some p), s') ∧ s.heap.length ≤ p ∧
      deref s' (some p) = some ⟨root_, none, Message.PRIO_INFORMATION⟩ ∧
      find s' root_ = some p) ∧
    (∃ (p : Ptr) (s' : Registry),
      getRootLogger (shutdown s) = (.ok (some p), s') ∧
      deref s' (some p) = some ⟨root_, none, Message.PRIO_INFORMATION⟩ ∧
      find s' root_ = some p) := by
  have hnew : ∀ t : Registry, find t root_ = none → ∃ (p : Ptr) (s' : Registry),
      getRootLogger t = (.ok (some p), s') ∧ t.heap.length ≤ p ∧
      deref s' (some p) = some ⟨root_, none, Message.PRIO_INFORMATION⟩ ∧
      find s' root_ = some p := by
    intro t ht
    refine ⟨t.heap.length, _, get_root_new _ t ht, le_refl _, by simp [deref], ?_⟩
    rw [find_register, if_pos rfl]
  refine ⟨rfl, ?_, hnew s, ?_⟩
  · cases h : find s root_ with
    | some p => exact ⟨p, s, get_found _ s root_ p h, h⟩
    | none =>
      obtain ⟨p, s', h1, _, _, h4⟩ := hnew s h
      exact ⟨p, s', h1, h4⟩
  · obtain ⟨p, s', h1, _, h3, h4⟩ := hnew (shutdown s) (find_nil _ rfl root_)
    exact ⟨p, s', h1, h3, h4⟩

/-- The witness of C9: the empty registry. -/
theorem getRootLogger_defaults_witness :
    ∃ (p : Ptr) (s' : Registry),
      getRootLogger Registry.empty = (.ok (some p), s') ∧ Registry.empty.heap.length ≤ p ∧
      deref s' (some p) = some ⟨root_, none, Message.PRIO_INFORMATION⟩ ∧
      find s' root_ = some p :=
  (getRootLogger_defaults Registry.empty).2.2.1 (by decide)

/-- C10: for every registry state and every string `name`, `getLogger(name)`
returns a pointer to a logger registered under `name`, and the pointer
`getParent(name)` returns is never null: it addresses the object whose channel
and level `get` reads. -/
theorem getLogger_never_fails (s : Registry) (hwf : s.WF) (name : Name) :
    (∃ (p : Ptr) (s' : Registry) (l : Logger), getLogger s name = (.ok (some p), s') ∧
      find s' name = some p ∧ deref s' (some p) = some l) ∧
    (∃ (q : Ptr) (s1 : Registry) (pl : Logger),
      getParent (name.length + 2) s name = (.ok (some q), s1) ∧
      deref s1 (some q) = some pl) := by
  refine ⟨?_, getParent_ok _ s hwf name (le_refl _)⟩
  obtain ⟨p, s', hres, hfind, hlt, _⟩ := getLogger_ok s hwf name
  exact ⟨p, s', s'.heap[p], hres, hfind, by simp [deref, hlt]⟩

/-- The witness of C10: the names `.`, `.x`, `a.` and `a..b` on the empty
registry. -/
theorem getLogger_never_fails_witness :
    (∃ (p : Ptr) (s' : Registry) (l : Logger),
      getLogger Registry.empty ".".toList = (.ok (some p), s') ∧
      find s' ".".toList = some p ∧ deref s' (some p) = some l) ∧
    (∃ (p : Ptr) (s' : Registry) (l : Logger),
      getLogger Registry.empty ".x".toList = (.ok (some p), s') ∧
      find s' ".x".toList = some p ∧ deref s' (some p) = some l) ∧
    (∃ (p : Ptr) (s' : Registry) (l : Logger),
      getLogger Registry.empty "a.".toList = (.ok (some p), s') ∧
      find s' "a.".toList = some p ∧ deref s' (some p) = some l) ∧
    (∃ (p : Ptr) (s' : Registry) (l : Logger),
      getLogger Registry.empty "a..b".toList = (.ok (some p), s') ∧
      find s' "a..b".toList = some p ∧ deref s' (some p) = some l) :=
  ⟨(getLogger_never_fails Registry.empty (by decide) ".".toList).1,
    (getLogger_never_fails Registry.empty (by decide) ".x".toList).1,
    (getLogger_never_fails Registry.empty (by decide) "a.".toList).1,
    (getLogger_never_fails Registry.empty (by decide) "a..b".toList).1⟩

/-! ## The shape of the state after an operation -/

/-- The three states `getLogger` can end in. -/
theorem getLogger_state (s : Registry) (hwf : s.WF) (n : Name) :
    ∃ (p : Ptr) (s' : Registry), getLogger s n = (.ok (some p), s') ∧
      ((find s n = some p ∧ s' = s) ∨
        (find s n = none ∧ p = s.heap.length ∧ ∃ (c : ChannelPtr) (l : Int),
          s' = ⟨s.heap ++ [⟨n, c, l⟩], (n, s.heap.length) :: s.lmap_⟩) ∨
        (find s n = none ∧ find s root_ = none ∧ n ≠ root_ ∧ p = s.heap.length + 1 ∧
          s' = ⟨s.heap ++ [⟨root_, none, Message.PRIO_INFORMATION⟩,
              ⟨n, none, Message.PRIO_INFORMATION⟩],
            (n, s.heap.length + 1) :: (root_, s.heap.length) :: s.lmap_⟩)) := by
  cases h : find s n with
  | some p => exact ⟨p, s, get_found _ s n p h, Or.inl ⟨rfl, rfl⟩⟩
  | none =>
    by_cases hn : n = root_
    · subst hn
      exact ⟨s.heap.length, _, get_root_new _ s h, Or.inr (Or.inl ⟨rfl, rfl, _, _, rfl⟩)⟩
    · rcases get_unregistered (fuelFor n) s n hwf hn h (by simp [fuelFor]) with
        ⟨k, q, pl, _, _, _, _, hres⟩ | ⟨_, r, pl, _, _, hres⟩ | ⟨_, hr, hres⟩
      · exact ⟨s.heap.length, _, hres, Or.inr (Or.inl ⟨rfl, rfl, _, _, rfl⟩)⟩
      · exact ⟨s.heap.length, _, hres, Or.inr (Or.inl ⟨rfl, rfl, _, _, rfl⟩)⟩
      · exact ⟨s.heap.length + 1, _, hres, Or.inr (Or.inr ⟨rfl, hr, hn, rfl, rfl⟩)⟩

theorem heap_first (h : List Logger) (a : Logger) (ext : List Logger) :
    (h ++ a :: ext)[h.length]? = some a := by
  rw [List.getElem?_append_right (le_refl _)]
  simp

theorem heap_old (h ext : List Logger) (a : Nat) (l : Logger) (ha : h[a]? = some l) :
    (h ++ ext)[a]? = some l := by
  have hlt : a < h.length := by
    by_contra hc
    rw [List.getElem?_eq_none (by omega)] at ha
    exact absurd ha (by simp)
  rw [List.getElem?_append_left hlt]
  exact ha

theorem Grows_refl (s : Registry) : s.Grows s :=
  ⟨le_refl _, fun _ l h => ⟨l, h, rfl⟩, fun _ he => Or.inl he⟩

theorem Grows_one (s : Registry) (n : Name) (c : ChannelPtr) (l : Int) :
    s.Grows ⟨s.heap ++ [⟨n, c, l⟩], (n, s.heap.length) :: s.lmap_⟩ := by
  refine ⟨by simp, fun a x h => ⟨x, heap_old _ _ a x h, rfl⟩, ?_⟩
  intro e he
  simp only [List.mem_cons] at he
  rcases he with rfl | he
  · exact Or.inr ⟨le_refl _, _, heap_first _ _ _, rfl⟩
  · exact Or.inl he

theorem Grows_two (s : Registry) (n : Name) (c1 c2 : ChannelPtr) (l1 l2 : Int) :
    s.Grows ⟨s.heap ++ [⟨root_, c1, l1⟩, ⟨n, c2, l2⟩],
      (n, s.heap.length + 1) :: (root_, s.heap.length) :: s.lmap_⟩ := by
  refine ⟨by simp, fun a x h => ⟨x, heap_old _ _ a x h, rfl⟩, ?_⟩
  intro e he
  simp only [List.mem_cons] at he
  rcases he with rfl | rfl | he
  · exact Or.inr ⟨Nat.le_succ _, _, heap_second _ _ _, rfl⟩
  · exact Or.inr ⟨le_refl _, _, heap_first _ _ _, rfl⟩
  · exact Or.inl he

theorem Grows_callOn (s : Registry) (handle : LoggerPtr) (m : Logger → Logger)
    (hm : ∀ l : Logger, (m l).name_ = l.name_) : s.Grows (callOn s handle m).2 := by
  unfold callOn
  split
  · rename_i a l hd
    refine ⟨by simp, ?_, fun _ he => Or.inl he⟩
    intro b x hb
    simp only [deref] at hd
    by_cases hab : a = b
    · subst hab
      rw [hd] at hb
      simp only [Option.some.injEq] at hb
      subst hb
      have hlt : a < s.heap.length := by
        by_contra hc
        rw [List.getElem?_eq_none (Nat.le_of_not_lt hc)] at hd
        exact absurd hd (by simp)
      exact ⟨m l, by simp [hlt], hm l⟩
    · refine ⟨x, ?_, rfl⟩
      simp only
      rw [List.getElem?_set_ne hab]
      exact hb
  · exact Grows_refl s

theorem Grows_createLogger (s : Registry) (name : Name) (channel : ChannelPtr) (level : Int) :
    s.Grows (createLogger s name channel level).2 := by
  cases h : find s name with
  | some p =>
    rw [createLogger_found s name channel level p h]
    exact Grows_refl s
  | none =>
    rw [createLogger_new s name channel level h]
    exact Grows_one s name channel level

theorem Grows_getLogger (s : Registry) (hwf : s.WF) (n : Name) :
    s.Grows (getLogger s n).2 := by
  obtain ⟨p, s', hres, h | ⟨_, _, c, l, h⟩ | ⟨_, _, _, _, h⟩⟩ := getLogger_state s hwf n
  · rw [hres, h.2]
    exact Grows_refl s
  · rw [hres, h]
    exact Grows_one s n c l
  · rw [hres, h]
    exact Grows_two s n _ _ _ _

theorem Grows_step (s : Registry) (hwf : s.WF) (op : Op) : s.Grows (step s op) := by
  cases op with
  | find name => exact Grows_refl s
  | getLogger name => exact Grows_getLogger s hwf name
  | getRootLogger => exact Grows_getLogger s hwf root_
  | createLogger name channel level => exact Grows_createLogger s name channel level
  | setLevel handle level => exact Grows_callOn s handle _ (fun _ => rfl)
  | setChannel handle channel => exact Grows_callOn s handle _ (fun _ => rfl)

theorem Grows_WF (s s' : Registry) (hwf : s.WF) (hg : s.Grows s') : s'.WF := by
  obtain ⟨hlen, _, hent⟩ := hg
  intro e he
  rcases hent e he with hold | ⟨_, l, hl, _⟩
  · exact Nat.lt_of_lt_of_le (hwf e hold) hlen
  · by_contra hc
    rw [List.getElem?_eq_none (Nat.le_of_not_lt hc)] at hl
    exact absurd hl (by simp)

theorem Grows_KeyIsName (s s' : Registry) (hk : s.KeyIsName) (hg : s.Grows s') :
    s'.KeyIsName := by
  obtain ⟨_, hobj, hent⟩ := hg
  intro e he
  rcases hent e he with hold | ⟨_, l, hl, hname⟩
  · obtain ⟨l, hl, hname⟩ := hk e hold
    obtain ⟨l', hl', hname'⟩ := hobj e.2 l hl
    exact ⟨l', hl', hname'.trans hname⟩
  · exact ⟨l, hl, hname⟩

theorem step_WF (s : Registry) (hwf : s.WF) (op : Op) : (step s op).WF :=
  Grows_WF s _ hwf (Grows_step s hwf op)

theorem run_WF (ops : List Op) (s : Registry) (hwf : s.WF) : (run s ops).WF := by
  induction ops generalizing s with
  | nil => exact hwf
  | cons op ops ih => exact ih (step s op) (step_WF s hwf op)

/-! ## The claims on termination and on filtering -/

theorem get_root_ok (s : Registry) :
    ∃ (q : Ptr) (s1 : Registry), get 1 s root_ = (.ok (some q), s1) := by
  cases h : find s root_ with
  | some r => exact ⟨r, s, get_found 0 s root_ r h⟩
  | none => exact ⟨s.heap.length, _, get_root_new 0 s h⟩

/-- With enough recursion depth the result of `getParent` does not depend on
the depth. -/
theorem getParent_fuel (fuel : Nat) (s : Registry) (name : Name)
    (h : name.length + 2 ≤ fuel) :
    getParent fuel s name = getParent (name.length + 2) s name := by
  rcases getParent_cases fuel s name h with ⟨k, q, hk, hq, hmax, hres⟩ | ⟨hall, hres⟩
  · rcases getParent_cases (name.length + 2) s name (le_refl _) with
      ⟨k2, q2, hk2, hq2, hmax2, hres2⟩ | ⟨hall2, _⟩
    · have hkk : k2 = k := by
        rcases Nat.lt_trichotomy k2 k with hlt | heq | hgt
        · have := hmax2 k hlt hk
          rw [hq] at this
          exact absurd this (by simp)
        · exact heq
        · have := hmax k2 hgt hk2
          rw [hq2] at this
          exact absurd this (by simp)
      subst hkk
      rw [hq] at hq2
      rw [hres, hres2, Option.some.inj hq2]
    · have := hall2 k hk
      rw [hq] at this
      exact absurd this (by simp)
  · rcases getParent_cases (name.length + 2) s name (le_refl _) with
      ⟨k2, q2, hk2, hq2, _, _⟩ | ⟨_, hres2⟩
    · have := hall k2 hk2
      rw [hq2] at this
      exact absurd this (by simp)
    · rw [hres, hres2]

/-- C11: for every registry state and every name the ancestor resolution
terminates: a recursive call of `getParent` is made on the prefix before the
last `.`, which is strictly shorter; a name without `.` ends the recursion in
`get(root_)`, which returns without calling `getParent`; so a recursion depth
of the length of the name plus two always gives a result, the same for every
larger depth. -/
theorem getParent_terminates (s : Registry) (name : Name) :
    (∀ pos : Nat, rfind name '.' = some pos →
      (substr name 0 pos).length < name.length) ∧
    (∀ (fuel pos : Nat), rfind name '.' = some pos → find s (substr name 0 pos) = none →
      getParent (fuel + 1) s name = getParent fuel s (substr name 0 pos)) ∧
    (∀ fuel : Nat, rfind name '.' = none → getParent (fuel + 2) s name = get 1 s root_) ∧
    (∃ (q : Ptr) (s1 : Registry), get 1 s root_ = (.ok (some q), s1)) ∧
    (∀ fuel : Nat, name.length + 2 ≤ fuel → ∃ (q : Ptr) (s1 : Registry),
      getParent fuel s name = (.ok (some q), s1) ∧
      getParent (name.length + 2) s name = (.ok (some q), s1)) := by
  refine ⟨?_, ?_, ?_, get_root_ok s, ?_⟩
  · intro pos h
    have hlt := getElem_some_lt name pos '.' (rfind_some name '.' pos h).1
    rw [substr_zero, List.length_take]
    omega
  · intro fuel pos h hf
    simp only [getParent, h, hf]
  · intro fuel h
    simp only [getParent, h]
    exact get_root_fuel fuel s
  · intro fuel h
    have hq : ∃ (q : Ptr) (s1 : Registry), getParent fuel s name = (.ok (some q), s1) := by
      rcases getParent_cases fuel s name h with ⟨k, q, _, _, _, hres⟩ | ⟨_, hres⟩
      · exact ⟨q, s, hres⟩
      · obtain ⟨q, s1, hr⟩ := get_root_ok s
        exact ⟨q, s1, hres.trans hr⟩
    obtain ⟨q, s1, hr⟩ := hq
    exact ⟨q, s1, hr, (getParent_fuel fuel s name h).symm.trans hr⟩

/-- The witness of C11: the name `a.b` on the empty registry: one recursive
call on `a`, which has no `.`, then the root. -/
theorem getParent_terminates_witness :
    (substr "a.b".toList 0 1).length < "a.b".toList.length ∧
    getParent (4 + 1) Registry.empty "a.b".toList =
      getParent 4 Registry.empty (substr "a.b".toList 0 1) ∧
    getParent (3 + 2) Registry.empty "a".toList = get 1 Registry.empty root_ ∧
    ∃ (q : Ptr) (s1 : Registry),
      getParent 9 Registry.empty "a.b".toList = (.ok (some q), s1) ∧
      getParent ("a.b".toList.length + 2) Registry.empty "a.b".toList = (.ok (some q), s1) :=
  ⟨(getParent_terminates Registry.empty "a.b".toList).1 1 (by decide),
    (getParent_terminates Registry.empty "a.b".toList).2.1 4 1 (by decide) (by decide),
    (getParent_terminates Registry.empty "a".toList).2.2.1 3 (by decide),
    (getParent_terminates Registry.empty "a.b".toList).2.2.2.2 9 (by decide)⟩

/-- C12: for every logger and every message, `log(message)` calls the
channel once, with that message, when the priority of the message is at least
the threshold and a channel is attached, and makes no call otherwise; with
threshold `WARNING` a message of priority `INFORMATION` is not forwarded and,
a channel being attached, one of priority `ERROR` is. -/
theorem log_filters (l : Logger) (msg : Message) :
    (∀ c : Ptr, l.channel_ = some c → l.level_ ≤ msg.getPriority →
      l.log msg = [(c, msg)]) ∧
    (l.channel_ = none ∨ msg.getPriority < l.level_ → l.log msg = []) ∧
    (∀ (name text : Name) (channel : ChannelPtr),
      Logger.log ⟨name, channel, Message.PRIO_WARNING⟩ ⟨text, Message.PRIO_INFORMATION⟩ = []) ∧
    (∀ (name text : Name) (c : Ptr),
      Logger.log ⟨name, some c, Message.PRIO_WARNING⟩ ⟨text, Message.PRIO_ERROR⟩ =
        [(c, ⟨text, Message.PRIO_ERROR⟩)]) := by
  refine ⟨?_, ?_, ?_, ?_⟩
  · intro c hc hle
    simp [Logger.log, hc, hle]
  · rintro (hc | hlt)
    · simp only [Logger.log, hc]
      split <;> rfl
    · have : ¬ msg.getPriority ≥ l.level_ := not_le.mpr hlt
      simp [Logger.log, this]
  · intro name text channel
    simp [Logger.log, Message.getPriority, Message.PRIO_WARNING, Message.PRIO_INFORMATION]
  · intro name text c
    simp [Logger.log, Message.getPriority, Message.PRIO_WARNING, Message.PRIO_ERROR]

/-- The witness of C12: a logger with threshold `WARNING` and channel `7`. -/
theorem log_filters_witness :
    Logger.log ⟨"svc".toList, some 7, Message.PRIO_WARNING⟩
      ⟨"up".toList, Message.PRIO_FATAL⟩ = [(7, ⟨"up".toList, Message.PRIO_FATAL⟩)] ∧
    Logger.log ⟨"svc".toList, some 7, Message.PRIO_WARNING⟩
      ⟨"up".toList, Message.PRIO_DEBUG⟩ = [] ∧
    Logger.log ⟨"svc".toList, none, Message.PRIO_WARNING⟩
      ⟨"up".toList, Message.PRIO_FATAL⟩ = [] :=
  ⟨(log_filters ⟨"svc".toList, some 7, Message.PRIO_WARNING⟩
      ⟨"up".toList, Message.PRIO_FATAL⟩).1 7 rfl (by decide),
    (log_filters ⟨"svc".toList, some 7, Message.PRIO_WARNING⟩
      ⟨"up".toList, Message.PRIO_DEBUG⟩).2.1 (Or.inr (by decide)),
    (log_filters ⟨"svc".toList, none, Message.PRIO_WARNING⟩
      ⟨"up".toList, Message.PRIO_FATAL⟩).2.1 (Or.inl rfl)⟩

/-- C13: for every logger and every level, `is(level)` is true exactly when
the threshold is at most `level`, which is exactly when `log` lets a message
of that priority pass to an attached channel; when `is(p)` is false, `log` of
a message of priority `p` forwards nothing. -/
theorem is_matches_log (l : Logger) (level : Int) (msg : Message) :
    (l.is level = true ↔ l.level_ ≤ level) ∧
    (∀ c : Ptr, l.channel_ = some c →
      (l.is msg.getPriority = true ↔ l.log msg = [(c, msg)])) ∧
    (l.is msg.getPriority = false → l.log msg = []) := by
  refine ⟨by simp [Logger.is], ?_, ?_⟩
  · intro c hc
    by_cases h : l.level_ ≤ msg.getPriority
    · simp [Logger.is, Logger.log, hc, h]
    · simp [Logger.is, Logger.log, hc, h]
  · intro h
    have h2 : ¬ msg.getPriority ≥ l.level_ := by simpa [Logger.is] using h
    simp [Logger.log, h2]

/-- The witness of C13: threshold `WARNING`, a message of priority `DEBUG`. -/
theorem is_matches_log_witness :
    Logger.is ⟨"svc".toList, some 7, Message.PRIO_WARNING⟩ Message.PRIO_DEBUG = false ∧
    Logger.log ⟨"svc".toList, some 7, Message.PRIO_WARNING⟩
      ⟨"up".toList, Message.PRIO_DEBUG⟩ = [] :=
  ⟨by decide,
    (is_matches_log ⟨"svc".toList, some 7, Message.PRIO_WARNING⟩ Message.PRIO_DEBUG
      ⟨"up".toList, Message.PRIO_DEBUG⟩).2.2 (by decide)⟩

/-! ## Objects are changed by the setters only -/

theorem heap_kept_createLogger (s : Registry) (name : Name) (channel : ChannelPtr)
    (level : Int) (a : Nat) (l : Logger) (h : s.heap[a]? = some l) :
    (createLogger s name channel level).2.heap[a]? = some l := by
  cases hf : find s name with
  | some p =>
    rw [createLogger_found s name channel level p hf]
    exact h
  | none =>
    rw [createLogger_new s name channel level hf]
    exact heap_old _ _ a l h

theorem heap_kept_getLogger (s : Registry) (hwf : s.WF) (n : Name) (a : Nat) (l : Logger)
    (h : s.heap[a]? = some l) : (getLogger s n).2.heap[a]? = some l := by
  obtain ⟨p, s', hres, h1 | ⟨_, _, c, x, h1⟩ | ⟨_, _, _, _, h1⟩⟩ := getLogger_state s hwf n
  · rw [hres, h1.2]
    exact h
  · rw [hres, h1]
    exact heap_old _ _ a l h
  · rw [hres, h1]
    exact heap_old _ _ a l h

theorem callOn_other (s : Registry) (handle : LoggerPtr) (m : Logger → Logger) (c : Ptr)
    (hc : handle ≠ some c) : deref (callOn s handle m).2 (some c) = deref s (some c) := by
  unfold callOn
  split
  · rename_i a l hd
    have hac : a ≠ c := fun e => hc (by rw [e])
    simp only [deref]
    exact List.getElem?_set_ne hac
  · rfl

/-- The pointer `getParent` returns is registered or addresses the root it
has just created. -/
theorem getParent_source (fuel : Nat) (s : Registry) (name : Name)
    (h : name.length + 2 ≤ fuel) :
    ∃ (r : Ptr) (s1 : Registry), getParent fuel s name = (.ok (some r), s1) ∧
      ((∃ m : Name, find s m = some r) ∨ r = s.heap.length) := by
  rcases getParent_cases fuel s name h with ⟨k, q, _, hq, _, hres⟩ | ⟨_, hres⟩
  · exact ⟨q, s, hres, Or.inl ⟨_, hq⟩⟩
  · cases hroot : find s root_ with
    | some r =>
      rw [get_found 0 s root_ r hroot] at hres
      exact ⟨r, s, hres, Or.inl ⟨root_, hroot⟩⟩
    | none =>
      rw [get_root_new 0 s hroot] at hres
      exact ⟨s.heap.length, _, hres, Or.inr rfl⟩

/-- After `shutdown()` the map never again holds an address allocated before. -/
theorem run_after_shutdown (ops : List Op) (s t : Registry) (hwf : t.WF)
    (hlen : s.heap.length ≤ t.heap.length) (hnew : ∀ e ∈ t.lmap_, s.heap.length ≤ e.2) :
    (run t ops).WF ∧ s.heap.length ≤ (run t ops).heap.length ∧
      ∀ e ∈ (run t ops).lmap_, s.heap.length ≤ e.2 := by
  induction ops generalizing t with
  | nil => exact ⟨hwf, hlen, hnew⟩
  | cons op ops ih =>
    obtain ⟨hl, _, hent⟩ := Grows_step t hwf op
    refine ih (step t op) (step_WF t hwf op) (le_trans hlen hl) ?_
    intro e he
    rcases hent e he with hold | ⟨hge, _⟩
    · exact hnew e hold
    · exact le_trans hlen hge

/-! ## The claims on the life of a logger -/

/-- C14: inheritance happens once, at creation: after `getLogger(n)` has
created the logger for `n`, a `setLevel` or `setChannel` through the handle of
any other registered logger, its ancestor included, changes that logger and
leaves the threshold and channel of the logger of `n` as they were, and so
does a later `createLogger` of any name, a nearer ancestor of `n` included. -/
theorem inheritance_only_at_creation (s : Registry) (hwf : s.WF) (n : Name)
    (hfree : find s n = none) :
    ∃ (c : Ptr) (s1 : Registry) (l : Logger), getLogger s n = (.ok (some c), s1) ∧
      deref s1 (some c) = some l ∧
      (∀ (m : Name) (q : Ptr), m ≠ n → find s1 m = some q →
        (∀ level : Int, ∃ s2 : Registry,
          callOn s1 (some q) (fun x => x.setLevel level) = (.ok (), s2) ∧
          (deref s2 (some q)).map Logger.getLevel = some level ∧
          deref s2 (some c) = some l ∧ find s2 n = some c) ∧
        (∀ channel : ChannelPtr, ∃ s2 : Registry,
          callOn s1 (some q) (fun x => x.setChannel channel) = (.ok (), s2) ∧
          (deref s2 (some q)).map Logger.getChannel = some channel ∧
          deref s2 (some c) = some l ∧ find s2 n = some c)) ∧
      (∀ (m : Name) (channel : ChannelPtr) (level : Int),
        deref (createLogger s1 m channel level).2 (some c) = some l ∧
        find (createLogger s1 m channel level).2 n = some c) := by
  obtain ⟨c, s1, hres, hfind, hlt, hwf1⟩ := getLogger_ok s hwf n
  have hl : deref s1 (some c) = some s1.heap[c] := by simp [deref, hlt]
  have hne : ∀ (m : Name) (q : Ptr), m ≠ n → find s1 m = some q → q ≠ c := by
    intro m q hm hq
    have hmn : ¬ n = m := fun e => hm e.symm
    obtain ⟨p, s', hres', h1 | ⟨_, hp, x, y, h1⟩ | ⟨_, _, _, hp, h1⟩⟩ := getLogger_state s hwf n
    · rw [hfree] at h1
      exact absurd h1.1 (by simp)
    · rw [hres] at hres'
      obtain ⟨hpc, hs⟩ := Prod.mk.inj hres'
      have hpc2 : c = p := Option.some.inj (Except.ok.inj hpc)
      rw [hs, h1, find_register, if_neg hmn] at hq
      have := hwf (m, q) (mapFind_mem _ _ _ hq)
      intro e
      rw [e, hpc2, hp] at this
      exact Nat.lt_irrefl _ this
    · rw [hres] at hres'
      obtain ⟨hpc, hs⟩ := Prod.mk.inj hres'
      have hpc2 : c = p := Option.some.inj (Except.ok.inj hpc)
      rw [hs, h1] at hq
      simp only [find, mapFind, hmn, if_false] at hq
      by_cases hr : root_ = m
      · simp only [hr, if_true, Option.some.injEq] at hq
        intro e
        rw [← hq, hpc2, hp] at e
        exact Nat.succ_ne_self _ e.symm
      · simp only [hr, if_false] at hq
        have := hwf (m, q) (mapFind_mem _ _ _ hq)
        intro e
        rw [e, hpc2, hp] at this
        exact Nat.lt_irrefl _ (Nat.lt_trans (Nat.lt_succ_self _) this)
  refine ⟨c, s1, s1.heap[c], hres, hl, ?_, ?_⟩
  · intro m q hm hq
    have hqc : (some q : LoggerPtr) ≠ some c := fun e => hne m q hm hq (Option.some.inj e)
    have hqlt : q < s1.heap.length := hwf1 (m, q) (mapFind_mem _ _ _ hq)
    refine ⟨?_, ?_⟩
    · intro level
      obtain ⟨hcall, hd⟩ := callOn_ok s1 q (fun x => x.setLevel level) hqlt
      have hother := callOn_other s1 (some q) (fun x => x.setLevel level) c hqc
      rw [hcall] at hother
      exact ⟨_, hcall, by rw [hd]; rfl, hother.trans hl, hfind⟩
    · intro channel
      obtain ⟨hcall, hd⟩ := callOn_ok s1 q (fun x => x.setChannel channel) hqlt
      have hother := callOn_other s1 (some q) (fun x => x.setChannel channel) c hqc
      rw [hcall] at hother
      exact ⟨_, hcall, by rw [hd]; rfl, hother.trans hl, hfind⟩
  · intro m channel level
    exact ⟨heap_kept_createLogger s1 m channel level c _ (List.getElem?_eq_getElem hlt),
      createLogger_mono s1 m channel level n c hfind⟩

/-- The witness of C14: `svc` is registered with threshold `WARNING`; after
`getLogger("svc.worker")` a `setLevel` through the handle of `svc` leaves the
logger of `svc.worker` as it was. -/
theorem inheritance_only_at_creation_witness :
    ∃ (c : Ptr) (s1 : Registry) (l : Logger),
      getLogger ⟨[⟨"svc".toList, some 1, Message.PRIO_WARNING⟩], [("svc".toList, 0)]⟩
        "svc.worker".toList = (.ok (some c), s1) ∧
      deref s1 (some c) = some l ∧
      ∀ level : Int, ∃ s2 : Registry,
        callOn s1 (some 0) (fun x => x.setLevel level) = (.ok (), s2) ∧
        (deref s2 (some 0)).map Logger.getLevel = some level ∧
        deref s2 (some c) = some l := by
  obtain ⟨c, s1, l, h1, h2, h3, _⟩ := inheritance_only_at_creation
    ⟨[⟨"svc".toList, some 1, Message.PRIO_WARNING⟩], [("svc".toList, 0)]⟩ (by decide)
    "svc.worker".toList (by decide)
  have hs : (getLogger ⟨[⟨"svc".toList, some 1, Message.PRIO_WARNING⟩],
      [("svc".toList, 0)]⟩ "svc.worker".toList).2 = s1 := by rw [h1]
  have hq : find s1 "svc".toList = some 0 :=
    hs ▸ (get_getParent_mono "svc".toList 0 _).1 _ "svc.worker".toList (by decide)
  refine ⟨c, s1, l, h1, h2, fun level => ?_⟩
  obtain ⟨s2, hcall, hlev, hkeep, _⟩ := (h3 "svc".toList 0 (by decide) hq).1 level
  exact ⟨s2, hcall, hlev, hkeep⟩

/-- C15: a registered name keeps its logger until teardown: for every registry
state, every name `n` registered in it and every operation other than
`shutdown`, whether it succeeds or throws, `n` is registered afterwards and
maps to the same address; and `find`, `getLogger`, `getRootLogger` and
`createLogger` leave the object at that address as it is. -/
theorem registered_name_keeps_logger (s : Registry) (n : Name) (p : Ptr)
    (h : find s n = some p) :
    (∀ op : Op, find (step s op) n = some p) ∧
    (∀ ops : List Op, find (run s ops) n = some p) ∧
    (∀ m : Name, find (getLogger s m).2 n = some p) ∧
    find (getRootLogger s).2 n = some p ∧
    (∀ (m : Name) (channel : ChannelPtr) (level : Int),
      find (createLogger s m channel level).2 n = some p) ∧
    (∀ (channel : ChannelPtr) (level : Int),
      createLogger s n channel level = (.error .alreadyExists, s)) ∧
    (s.WF → ∀ l : Logger, deref s (some p) = some l →
      (∀ m : Name, deref (getLogger s m).2 (some p) = some l) ∧
      deref (getRootLogger s).2 (some p) = some l ∧
      (∀ (m : Name) (channel : ChannelPtr) (level : Int),
        deref (createLogger s m channel level).2 (some p) = some l)) := by
  refine ⟨fun op => step_mono s op n p h, fun ops => run_mono ops s n p h,
    fun m => (get_getParent_mono n p _).1 s m h, (get_getParent_mono n p _).1 s root_ h,
    fun m channel level => createLogger_mono s m channel level n p h,
    fun channel level => createLogger_found s n channel level p h, ?_⟩
  intro hwf l hl
  exact ⟨fun m => heap_kept_getLogger s hwf m p l hl, heap_kept_getLogger s hwf root_ p l hl,
    fun m channel level => heap_kept_createLogger s m channel level p l hl⟩

/-- The witness of C15: `svc` registered at address `0`; a `createLogger` that
throws, one that succeeds, and two lookups. -/
theorem registered_name_keeps_logger_witness :
    find (run ⟨[⟨"svc".toList, some 1, Message.PRIO_WARNING⟩], [("svc".toList, 0)]⟩
      [.createLogger "svc".toList none Message.PRIO_FATAL,
        .createLogger "svc.a".toList none Message.PRIO_FATAL,
        .getLogger "svc.a.b".toList, .getRootLogger]) "svc".toList = some 0 :=
  (registered_name_keeps_logger
    ⟨[⟨"svc".toList, some 1, Message.PRIO_WARNING⟩], [("svc".toList, 0)]⟩
    "svc".toList 0 (by decide)).2.1 _

/-- C16: `shutdown()` changes the map only: every object keeps its name,
threshold and channel, and `log` through an old handle makes the calls it made
before; no name is registered afterwards; and whatever operations follow, the
logger `getLogger` then returns and the ancestor `getParent` resolves for it
are objects created after the `shutdown()`, never an old handle. -/
theorem shutdown_orphans_handles (s : Registry) :
    (shutdown s).heap = s.heap ∧
    (∀ p : LoggerPtr, deref (shutdown s) p = deref s p) ∧
    (∀ (p : LoggerPtr) (msg : Message),
      (deref (shutdown s) p).map (fun l => l.log msg) =
        (deref s p).map (fun l => l.log msg)) ∧
    (∀ n : Name, find (shutdown s) n = none) ∧
    (∀ (n : Name) (a : Nat) (l : Logger), s.heap[a]? = some l →
      (getLogger (shutdown s) n).2.heap[a]? = some l) ∧
    (∀ (ops : List Op) (n : Name), ∃ (q : Ptr) (t' : Registry) (r : Ptr) (tr : Registry),
      getLogger (run (shutdown s) ops) n = (.ok (some q), t') ∧ s.heap.length ≤ q ∧
      getParent (n.length + 2) (run (shutdown s) ops) n = (.ok (some r), tr) ∧
      s.heap.length ≤ r) := by
  have hp : ∀ p : LoggerPtr, deref (shutdown s) p = deref s p := by
    intro p
    cases p <;> rfl
  refine ⟨rfl, hp, fun p msg => by rw [hp], fun n => find_nil _ rfl n, ?_, ?_⟩
  · intro n a l h
    exact heap_kept_getLogger (shutdown s) (WF_nil _ rfl) n a l h
  · intro ops n
    obtain ⟨hwf, hlen, hnew⟩ := run_after_shutdown ops s (shutdown s) (WF_nil _ rfl)
      (le_refl _) (fun e he => absurd he (List.not_mem_nil e))
    obtain ⟨r, tr, hpar, hsrc⟩ := getParent_source (n.length + 2) (run (shutdown s) ops) n
      (le_refl _)
    have hr : s.heap.length ≤ r := by
      rcases hsrc with ⟨m, hm⟩ | hm
      · exact hnew (m, r) (mapFind_mem _ _ _ hm)
      · rw [hm]; exact hlen
    obtain ⟨q, t', hres, h1 | ⟨_, hq, _⟩ | ⟨_, _, _, hq, _⟩⟩ :=
      getLogger_state (run (shutdown s) ops) hwf n
    · exact ⟨q, t', r, tr, hres, hnew (n, q) (mapFind_mem _ _ _ h1.1), hpar, hr⟩
    · exact ⟨q, t', r, tr, hres, by rw [hq]; exact hlen, hpar, hr⟩
    · exact ⟨q, t', r, tr, hres, by rw [hq]; exact Nat.le_succ_of_le hlen, hpar, hr⟩

/-- The witness of C16: `svc` registered with threshold `FATAL` and channel
`1`; after `shutdown()` the old object is as before and `getLogger("svc.x")`
leaves it so. -/
theorem shutdown_orphans_handles_witness :
    (getLogger (shutdown ⟨[⟨"svc".toList, some 1, Message.PRIO_FATAL⟩],
      [("svc".toList, 0)]⟩) "svc.x".toList).2.heap[0]? =
        some ⟨"svc".toList, some 1, Message.PRIO_FATAL⟩ :=
  (shutdown_orphans_handles ⟨[⟨"svc".toList, some 1, Message.PRIO_FATAL⟩],
    [("svc".toList, 0)]⟩).2.2.2.2.1 "svc.x".toList 0 _ (by decide)

/-! ## The claims on what a lookup registers -/

theorem find_kept (s : Registry) (hwf : s.WF) (ext : List Logger) (new : LoggerMap)
    (hnew : ∀ m : Name, mapFind s.lmap_ m ≠ none → mapFind (new ++ s.lmap_) m = mapFind s.lmap_ m)
    (m : Name) (q : Ptr) (h : find s m = some q) :
    find ⟨s.heap ++ ext, new ++ s.lmap_⟩ m = some q ∧
      deref ⟨s.heap ++ ext, new ++ s.lmap_⟩ (some q) = deref s (some q) := by
  have hq : q < s.heap.length := hwf (m, q) (mapFind_mem _ _ _ h)
  refine ⟨?_, ?_⟩
  · simp only [find] at h ⊢
    rw [hnew m (by rw [h]; simp), h]
  · simp only [deref]
    rw [List.getElem?_append_left hq]

/-- C18: for every registry state and every non-empty name `n` not registered
in it, `getLogger(n)` registers the root name as well, with threshold
`INFORMATION` and no channel, exactly when before the call neither the root
nor any prefix of `n` that ends just before a `.` was registered; no name
other than `n` and the root name is added, and every entry there was keeps its
address and its object. -/
theorem getLogger_registers_root_iff (s : Registry) (hwf : s.WF) (n : Name)
    (hn : n ≠ root_) (hfree : find s n = none) :
    ∃ (p : Ptr) (s' : Registry), getLogger s n = (.ok (some p), s') ∧
      find s' n = some p ∧
      ((find s root_ = none ∧ find s' root_ ≠ none) ↔
        (find s root_ = none ∧ ∀ k : Nat, n[k]? = some '.' → find s (n.take k) = none)) ∧
      (find s root_ = none → ∀ r : Ptr, find s' root_ = some r →
        deref s' (some r) = some ⟨root_, none, Message.PRIO_INFORMATION⟩) ∧
      (∀ m : Name, m ≠ n → m ≠ root_ → find s' m = find s m) ∧
      (∀ (m : Name) (q : Ptr), find s m = some q →
        find s' m = some q ∧ deref s' (some q) = deref s (some q)) := by
  have hn2 : ¬ n = root_ := hn
  have hone : ∀ (c : ChannelPtr) (l : Int) (m : Name), mapFind s.lmap_ m ≠ none →
      mapFind ([(n, s.heap.length)] ++ s.lmap_) m = mapFind s.lmap_ m := by
    intro c l m hm
    have hnm : ¬ n = m := by
      intro e
      subst e
      exact hm hfree
    simp [mapFind, hnm]
  rcases get_unregistered (fuelFor n) s n hwf hn hfree (by simp [fuelFor]) with
    ⟨k, q, pl, hk, hq, _, _, hres⟩ | ⟨_, r, pl, hr, _, hres⟩ | ⟨hall, hr, hres⟩
  · refine ⟨s.heap.length, _, hres, by rw [find_register, if_pos rfl], ?_, ?_, ?_, ?_⟩
    · rw [find_register, if_neg hn2]
      constructor
      · rintro ⟨h1, h2⟩
        exact absurd h1 h2
      · rintro ⟨_, h2⟩
        have := h2 k hk
        rw [hq] at this
        exact absurd this (by simp)
    · intro h0 r hr
      rw [find_register, if_neg hn2, h0] at hr
      exact absurd hr (by simp)
    · intro m hm _
      rw [find_register, if_neg (fun e => hm e.symm)]
    · intro m x hm
      exact find_kept s hwf _ [(n, s.heap.length)] (hone none 0) m x hm
  · refine ⟨s.heap.length, _, hres, by rw [find_register, if_pos rfl], ?_, ?_, ?_, ?_⟩
    · rw [find_register, if_neg hn2]
      constructor
      · rintro ⟨h1, h2⟩
        exact absurd h1 h2
      · rintro ⟨h1, _⟩
        rw [hr] at h1
        exact absurd h1 (by simp)
    · intro h0
      rw [hr] at h0
      exact absurd h0 (by simp)
    · intro m hm _
      rw [find_register, if_neg (fun e => hm e.symm)]
    · intro m x hm
      exact find_kept s hwf _ [(n, s.heap.length)] (hone none 0) m x hm
  · refine ⟨s.heap.length + 1, _, hres, by simp [find, mapFind], ?_, ?_, ?_, ?_⟩
    · constructor
      · intro _
        exact ⟨hr, hall⟩
      · intro _
        exact ⟨hr, by simp [find, mapFind, hn2]⟩
    · intro _ r hr2
      simp only [find, mapFind, hn2, if_false, if_true, Option.some.injEq] at hr2
      subst hr2
      simp only [deref]
      exact heap_first _ _ _
    · intro m hm hm2
      have h1 : ¬ n = m := fun e => hm e.symm
      have h2 : ¬ root_ = m := fun e => hm2 e.symm
      simp [find, mapFind, h1, h2]
    · intro m x hm
      refine find_kept s hwf _ [(n, s.heap.length + 1), (root_, s.heap.length)] ?_ m x hm
      intro m2 hm2
      have h1 : ¬ n = m2 := by
        intro e
        subst e
        exact hm2 hfree
      have h2 : ¬ root_ = m2 := by
        intro e
        subst e
        exact hm2 hr
      simp [mapFind, h1, h2]

/-- The witness of C18: on the empty registry `getLogger("a.b")` registers the
root name; below a registered `a` it does not. -/
theorem getLogger_registers_root_iff_witness :
    (∃ (p : Ptr) (s' : Registry),
      getLogger Registry.empty "a.b".toList = (.ok (some p), s') ∧
      find s' root_ ≠ none) ∧
    (∃ (p : Ptr) (s' : Registry),
      getLogger ⟨[⟨"a".toList, none, Message.PRIO_ERROR⟩], [("a".toList, 0)]⟩
        "a.b".toList = (.ok (some p), s') ∧
      find s' root_ = none) := by
  refine ⟨?_, ?_⟩
  · obtain ⟨p, s', h1, _, h3, _⟩ := getLogger_registers_root_iff Registry.empty (by decide)
      "a.b".toList (by decide) (by decide)
    exact ⟨p, s', h1, (h3.2 ⟨by decide, fun k _ => find_nil _ rfl _⟩).2⟩
  · obtain ⟨p, s', h1, _, h3, _⟩ := getLogger_registers_root_iff
      ⟨[⟨"a".toList, none, Message.PRIO_ERROR⟩], [("a".toList, 0)]⟩ (by decide)
      "a.b".toList (by decide) (by decide)
    refine ⟨p, s', h1, ?_⟩
    by_contra hc
    have h4 := (h3.1 ⟨by decide, hc⟩).2 1 (by decide)
    revert h4
    decide

/-! ## Reachable states -/

theorem KeyIsName_nil (s : Registry) (h : s.lmap_ = []) : s.KeyIsName := by
  intro e he
  rw [h] at he
  exact absurd he (List.not_mem_nil e)

theorem Reachable_inv (s : Registry) (h : Reachable s) : s.WF ∧ s.KeyIsName := by
  induction h with
  | init => exact ⟨WF_nil _ rfl, KeyIsName_nil _ rfl⟩
  | step s op _ ih =>
    exact ⟨step_WF s ih.1 op, Grows_KeyIsName s _ ih.2 (Grows_step s ih.1 op)⟩
  | shutdown s _ _ => exact ⟨WF_nil _ rfl, KeyIsName_nil _ rfl⟩

/-- C19: in every state reachable from the empty registry through the
operations and `shutdown`, each entry of the map is stored under the name of
the logger it addresses; `getLogger(n)` and a successful `createLogger(n, ...)`
return a logger that has name `n` and that `find(n)` returns afterwards; and
each insert they perform adds its pair, the key not being present: the map
afterwards is the map before with the new pairs in front. -/
theorem reachable_key_is_name (s : Registry) (hreach : Reachable s) :
    s.KeyIsName ∧
    (∀ n : Name, ∃ (p : Ptr) (s' : Registry) (l : Logger),
      getLogger s n = (.ok (some p), s') ∧ deref s' (some p) = some l ∧ l.getName = n ∧
      find s' n = some p ∧ s'.KeyIsName ∧
      ((find s n = some p ∧ s' = s) ∨
        (find s n = none ∧ s'.lmap_ = (n, p) :: s.lmap_) ∨
        (find s n = none ∧ find s root_ = none ∧ n ≠ root_ ∧
          ∃ r : Ptr, s'.lmap_ = (n, p) :: (root_, r) :: s.lmap_))) ∧
    (∀ (n : Name) (channel : ChannelPtr) (level : Int), find s n = none →
      ∃ (p : Ptr) (s' : Registry),
        createLogger s n channel level = (.ok (some p), s') ∧
        deref s' (some p) = some ⟨n, channel, level⟩ ∧
        find s' n = some p ∧ s'.KeyIsName ∧ s'.lmap_ = (n, p) :: s.lmap_) := by
  obtain ⟨hwf, hkey⟩ := Reachable_inv s hreach
  refine ⟨hkey, ?_, ?_⟩
  · intro n
    have hk' : (getLogger s n).2.KeyIsName :=
      Grows_KeyIsName s _ hkey (Grows_getLogger s hwf n)
    obtain ⟨p, s', hres, h1 | ⟨hf, hp, c, x, h1⟩ | ⟨hf, hr, hn, hp, h1⟩⟩ :=
      getLogger_state s hwf n
    · obtain ⟨hfind, hs⟩ := h1
      subst hs
      obtain ⟨l, hl, hname⟩ := hkey (n, p) (mapFind_mem _ _ _ hfind)
      exact ⟨p, s', l, hres, hl, hname, hfind, hkey, Or.inl ⟨hfind, rfl⟩⟩
    · rw [hres] at hk'
      subst h1 hp
      refine ⟨_, _, ⟨n, c, x⟩, hres, ?_, rfl, ?_, hk', Or.inr (Or.inl ⟨hf, rfl⟩)⟩
      · simp [deref]
      · rw [find_register, if_pos rfl]
    · rw [hres] at hk'
      subst h1 hp
      refine ⟨_, _, ⟨n, none, Message.PRIO_INFORMATION⟩, hres, ?_, rfl, ?_, hk',
        Or.inr (Or.inr ⟨hf, hr, hn, _, rfl⟩)⟩
      · simp only [deref]
        exact heap_second _ _ _
      · simp [find, mapFind]
  · intro n channel level hf
    have hk' : (createLogger s n channel level).2.KeyIsName :=
      Grows_KeyIsName s _ hkey (Grows_createLogger s n channel level)
    rw [createLogger_new s n channel level hf] at hk'
    refine ⟨s.heap.length, _, createLogger_new s n channel level hf, ?_, ?_, hk', rfl⟩
    · simp [deref]
    · rw [find_register, if_pos rfl]

/-- The witness of C19: the state after `getLogger("a.b")` and
`createLogger("a", 1, ERROR)` on the empty registry. -/
theorem reachable_key_is_name_witness :
    (step (step Registry.empty (.getLogger "a.b".toList))
      (.createLogger "a".toList (some 1) Message.PRIO_ERROR)).KeyIsName :=
  (reachable_key_is_name _
    (Reachable.step _ (.createLogger "a".toList (some 1) Message.PRIO_ERROR)
      (Reachable.step _ (.getLogger "a.b".toList) Reachable.init))).1

/-! ## The split of a path in `Attributes::getAttrList` -/

/-- What the split of `getAttrList` reads, for a string shorter than `npos`:
with a `.` in the path the read is at the last `.`; without, it is at `npos`,
outside the string. -/
theorem getAttrList_access (path : Name) (hlen : path.length < npos) :
    (∀ pos : Nat, rfind path '.' = some pos →
      getAttrListAccess path = some pos ∧ pos < path.length ∧
      getAttrListSplit path = some (path.take pos, path.drop (pos + 1))) ∧
    (rfind path '.' = none →
      getAttrListAccess path = some npos ∧ ¬ npos < path.length ∧
      getAttrListSplit path = none) := by
  refine ⟨?_, ?_⟩
  · intro pos h
    obtain ⟨hdot, _⟩ := rfind_some path '.' pos h
    have hlt := getElem_some_lt path pos '.' hdot
    have hne : ¬ path.length = pos := by omega
    have htake : List.take npos (List.drop (pos + 1) path) = List.drop (pos + 1) path := by
      apply List.take_of_length_le
      rw [List.length_drop]
      omega
    refine ⟨?_, hlt, ?_⟩
    · simp [getAttrListAccess, rfindPos, h, hne]
    · simp [getAttrListSplit, rfindPos, h, hne, hdot, erase, substr, htake]
  · intro h
    have hne : ¬ path.length = npos := by omega
    have hout : path[npos]? = none := List.getElem?_eq_none (by omega)
    refine ⟨?_, by omega, ?_⟩
    · simp [getAttrListAccess, rfindPos, h, hne]
    · simp [getAttrListSplit, rfindPos, h, hne, hout]

/-- C20 fails on the code: for the path `metric`, which has no `.`, `rfind`
gives `npos`, the test `key.length() != pos` lets `key[pos]` be evaluated, and
the read at `npos` is outside the six characters of the string; for
`metrics.metric` the read is at index 7, inside it. -/
theorem getAttrList_reads_outside_string :
    rfind "metric".toList '.' = none ∧
    getAttrListAccess "metric".toList = some npos ∧
    ¬ npos < "metric".toList.length ∧
    getAttrListSplit "metric".toList = none ∧
    getAttrListAccess "metrics.metric".toList = some 7 ∧
    getAttrListSplit "metrics.metric".toList = some ("metrics".toList, "metric".toList) := by
  decide

end dadi
